import Mathlib

/-!
Shallow embedding of the `marshrutka` route-planner core (Rust sources:
`src/index.rs`, `src/homeland.rs`, `src/cost.rs`, `src/skill.rs`,
`src/pathfinder.rs`) together with theorems settling the specification
claims about it.

Modelling conventions:
* Rust `u8`/`u32`/`usize` fields are modelled as `Nat` (no claim in scope
  depends on wrap-around behaviour, all quantities stay far below the
  respective moduli on the inputs considered).
* `time::Duration` is modelled by the number of nanoseconds as an `Int`
  where sub-second precision matters (`skill.rs`), and by whole seconds
  (`Int`) inside the cost model, where every constructed duration is a
  whole number of seconds.
* Rust `HashMap` based edge collections are modelled as association lists;
  the pathfinder's binary heap is modelled as a list popped at its
  comparator-minimal element (the Rust heap is a max-heap fed the reversed
  comparator, and the composite comparator never equates distinct values).
-/

namespace Marshrutka

/-! ## Coordinate model (`src/homeland.rs`, `src/index.rs`) -/

/-- `Homeland`: the four quadrant labels, in Rust declaration order. -/
inductive Homeland where
  | Blue
  | Red
  | Green
  | Yellow
  deriving DecidableEq, Repr

/-- `Border`: the four border identifiers, in Rust declaration order. -/
inductive Border where
  | BR
  | RG
  | GY
  | YB
  deriving DecidableEq, Repr

/-- `BorderDirection` from `src/index.rs`. -/
inductive BorderDirection where
  | Horizontal
  | Vertical
  deriving DecidableEq, Repr

/-- `Pos` from `src/index.rs` (`x`, `y` are `u8`). -/
structure Pos where
  x : Nat
  y : Nat
  deriving DecidableEq, Repr

/-- `CellIndex` from `src/index.rs`. -/
inductive CellIndex where
  | Center
  | Homeland (homeland : Homeland) (pos : Pos)
  | Border (border : Border) (shift : Nat)
  deriving DecidableEq, Repr

/-- `CellIndexBuilder` from `src/index.rs`. -/
inductive CellIndexBuilder where
  | Center
  | Homeland (homeland : Homeland) (pos : Pos)
  | Border (border : Border) (shift : Nat)
  deriving DecidableEq, Repr

/-- `Homeland::neighbours` from `src/homeland.rs`. -/
def Homeland.neighbours : Homeland → Homeland × Homeland
  | .Blue => (.Yellow, .Red)
  | .Red => (.Blue, .Green)
  | .Green => (.Red, .Yellow)
  | .Yellow => (.Blue, .Green)

/-- `Homeland::neighbour` from `src/homeland.rs`: the border adjoining the
homeland in the given direction. -/
def Homeland.neighbour : Homeland → BorderDirection → Border
  | .Blue, .Horizontal => .BR
  | .Blue, .Vertical => .YB
  | .Red, .Horizontal => .BR
  | .Red, .Vertical => .RG
  | .Green, .Horizontal => .GY
  | .Green, .Vertical => .RG
  | .Yellow, .Horizontal => .GY
  | .Yellow, .Vertical => .YB

/-- `Homeland::farland` from `src/homeland.rs`. -/
def Homeland.farland : Homeland → Homeland
  | .Blue => .Green
  | .Red => .Yellow
  | .Green => .Blue
  | .Yellow => .Red

/-- `Border::neighbours` from `src/index.rs`. -/
def Border.neighbours : Border → Homeland × Homeland
  | .BR => (.Blue, .Red)
  | .RG => (.Red, .Green)
  | .GY => (.Green, .Yellow)
  | .YB => (.Yellow, .Blue)

/-- `Border::direction` from `src/index.rs`. -/
def Border.direction : Border → BorderDirection
  | .BR => .Horizontal
  | .GY => .Horizontal
  | .RG => .Vertical
  | .YB => .Vertical

/-- `CellIndexBuilder::build` from `src/index.rs`: the single
canonicalisation point.  The Rust `match` tests its arms top to bottom:
`Center`/`(0,0)`/`Border{shift:0}` first, then the `x == 0` arms, then the
`y == 0` arms, then the pass-through arms. -/
def CellIndexBuilder.build : CellIndexBuilder → CellIndex
  | .Center => .Center
  | .Homeland _ ⟨0, 0⟩ => .Center
  | .Border _ 0 => .Center
  | .Homeland .Yellow ⟨0, y⟩ => .Border .YB y
  | .Homeland .Blue ⟨0, y⟩ => .Border .YB y
  | .Homeland .Red ⟨0, y⟩ => .Border .RG y
  | .Homeland .Green ⟨0, y⟩ => .Border .RG y
  | .Homeland .Blue ⟨x, 0⟩ => .Border .BR x
  | .Homeland .Red ⟨x, 0⟩ => .Border .BR x
  | .Homeland .Green ⟨x, 0⟩ => .Border .GY x
  | .Homeland .Yellow ⟨x, 0⟩ => .Border .GY x
  | .Homeland h p => .Homeland h p
  | .Border b s => .Border b s

/-! ## Cost model (`src/cost.rs`)

Durations in the cost model are whole numbers of seconds (every duration
constructed there is: `Duration::minutes(3)`, `Duration::seconds(10)`,
`Duration::minutes(24)`, `Duration::minutes(48)`, `Duration::ZERO`), so
they are modelled as `Int` seconds. -/

/-- `EdgeCost` from `src/cost.rs`; the `Caravan` time is in seconds. -/
inductive EdgeCost where
  | NoMove
  | CentralMove
  | StandardMove
  | Caravan (time : Int) (money : Nat)
  | ScrollOfEscape
  deriving DecidableEq, Repr

/-- `EdgeCost::legs`. -/
def EdgeCost.legs : EdgeCost → Nat
  | .NoMove | .CentralMove | .Caravan _ _ | .ScrollOfEscape => 0
  | .StandardMove => 1

/-- `EdgeCost::money`. -/
def EdgeCost.money : EdgeCost → Nat → Nat
  | .NoMove, _ | .StandardMove, _ | .CentralMove, _ => 0
  | .Caravan _ m, _ => m
  | .ScrollOfEscape, scrollOfEscapeCost => scrollOfEscapeCost

/-- `EdgeCost::time` (seconds; `minutes(3) = 180`, `seconds(10) = 10`). -/
def EdgeCost.time : EdgeCost → Int
  | .StandardMove => 180
  | .CentralMove => 10
  | .Caravan t _ => t
  | .NoMove | .ScrollOfEscape => 0

/-- `CostComparator` from `src/cost.rs`, in Rust declaration order. -/
inductive CostComparator where
  | Legs
  | Time
  | Money
  deriving DecidableEq, Repr

/-- `AggregatedCost` from `src/cost.rs`, in Rust declaration order (field
order inside each variant also follows the Rust declaration, which the
derived `Ord` compares left to right). -/
inductive AggregatedCost where
  | NoMove
  | CentralMove (time : Int)
  | StandardMove (time : Int) (legs : Nat)
  | Caravan (time : Int) (money : Nat)
  | ScrollOfEscape (money : Nat)
  deriving DecidableEq, Repr

/-- `AggregatedCost::time`. -/
def AggregatedCost.time : AggregatedCost → Int
  | .ScrollOfEscape _ | .NoMove => 0
  | .CentralMove t | .StandardMove t _ | .Caravan t _ => t

/-- `AggregatedCost::money`. -/
def AggregatedCost.money : AggregatedCost → Nat
  | .NoMove | .CentralMove _ | .StandardMove _ _ => 0
  | .Caravan _ m | .ScrollOfEscape m => m

/-- `AggregatedCost::legs`. -/
def AggregatedCost.legs : AggregatedCost → Nat
  | .NoMove | .CentralMove _ | .Caravan _ _ | .ScrollOfEscape _ => 0
  | .StandardMove _ l => l

/-- `From<(&EdgeCost, u32)> for AggregatedCost` from `src/cost.rs`.  The
catch-all arm of `AddAssign` repeats this very mapping inline. -/
def AggregatedCost.ofEdge (edgeCost : EdgeCost) (scrollOfEscapeCost : Nat) :
    AggregatedCost :=
  match edgeCost with
  | .NoMove => .NoMove
  | .CentralMove => .CentralMove edgeCost.time
  | .StandardMove => .StandardMove edgeCost.time edgeCost.legs
  | .Caravan _ m => .Caravan edgeCost.time m
  | .ScrollOfEscape => .ScrollOfEscape scrollOfEscapeCost

/-- `Command` from `src/cost.rs` (field order as declared: the derived
`Ord` compares `aggregated_cost`, then `from`, then `to`). -/
structure Command where
  aggregatedCost : AggregatedCost
  from_ : CellIndex
  to_ : CellIndex
  deriving DecidableEq, Repr

/-- `TotalCost` from `src/cost.rs`. -/
structure TotalCost where
  legs : Nat
  money : Nat
  time : Int
  commands : List Command
  deriving DecidableEq, Repr

/-- `TotalCost::new`. -/
def TotalCost.new (from_ : CellIndex) : TotalCost :=
  { legs := 0, money := 0, time := 0
    commands := [⟨.NoMove, from_, from_⟩] }

/-- `AddAssign<(&'static EdgeCost, u32, CellIndex, CellIndex)> for
TotalCost` from `src/cost.rs`, as a pure state transformer.  The three
running totals are bumped first; then the last command is inspected: a
trailing `NoMove` is replaced (reusing its `from`), a trailing
`StandardMove` merges with a new `StandardMove`, anything else appends a
fresh command. -/
def TotalCost.addAssign (t : TotalCost)
    (arg : EdgeCost × Nat × CellIndex × CellIndex) : TotalCost :=
  let (edgeCost, scrollOfEscapeCost, from_, to_) := arg
  let legs := t.legs + edgeCost.legs
  let money := t.money + edgeCost.money scrollOfEscapeCost
  let time := t.time + edgeCost.time
  match t.commands.getLast?, edgeCost with
  | some ⟨.NoMove, f, _⟩, ec =>
      { legs, money, time
        commands := t.commands.dropLast ++
          [⟨.ofEdge ec scrollOfEscapeCost, f, to_⟩] }
  | some ⟨.StandardMove pt pl, f, _⟩, .StandardMove =>
      { legs, money, time
        commands := t.commands.dropLast ++
          [⟨.StandardMove (pt + EdgeCost.StandardMove.time)
              (pl + EdgeCost.StandardMove.legs), f, to_⟩] }
  | _, ec =>
      { legs, money, time
        commands := t.commands ++ [⟨.ofEdge ec scrollOfEscapeCost, from_, to_⟩] }

/-! ### Derived `Ord` comparisons

Rust derives `Ord` for `Homeland`, `Border`, `Pos`, `CellIndex`,
`AggregatedCost` and `Command`: variants compare by declaration order,
fields lexicographically left to right.  `commands.iter().cmp` compares
command lists lexicographically (a strict prefix is less). -/

/-- Derived `Ord` on `Homeland` (declaration order). -/
def Homeland.cmp (a b : Homeland) : Ordering :=
  compare a.toCtorIdx b.toCtorIdx

/-- Derived `Ord` on `Border` (declaration order). -/
def Border.cmp (a b : Border) : Ordering :=
  compare a.toCtorIdx b.toCtorIdx

/-- Derived `Ord` on `Pos` (`x`, then `y`). -/
def Pos.cmp (a b : Pos) : Ordering :=
  (compare a.x b.x).then (compare a.y b.y)

/-- Derived `Ord` on `CellIndex` (variant order, then fields). -/
def CellIndex.cmp : CellIndex → CellIndex → Ordering
  | .Center, .Center => .eq
  | .Center, _ => .lt
  | .Homeland _ _, .Center => .gt
  | .Homeland h1 p1, .Homeland h2 p2 => (h1.cmp h2).then (p1.cmp p2)
  | .Homeland _ _, .Border _ _ => .lt
  | .Border _ _, .Center => .gt
  | .Border _ _, .Homeland _ _ => .gt
  | .Border b1 s1, .Border b2 s2 => (b1.cmp b2).then (compare s1 s2)

/-- Derived `Ord` on `AggregatedCost` (variant order, then fields in
declaration order). -/
def AggregatedCost.cmp : AggregatedCost → AggregatedCost → Ordering
  | .NoMove, .NoMove => .eq
  | .NoMove, _ => .lt
  | _, .NoMove => .gt
  | .CentralMove t1, .CentralMove t2 => compare t1 t2
  | .CentralMove _, _ => .lt
  | _, .CentralMove _ => .gt
  | .StandardMove t1 l1, .StandardMove t2 l2 =>
      (compare t1 t2).then (compare l1 l2)
  | .StandardMove _ _, _ => .lt
  | _, .StandardMove _ _ => .gt
  | .Caravan t1 m1, .Caravan t2 m2 => (compare t1 t2).then (compare m1 m2)
  | .Caravan _ _, _ => .lt
  | _, .Caravan _ _ => .gt
  | .ScrollOfEscape m1, .ScrollOfEscape m2 => compare m1 m2

/-- Derived `Ord` on `Command` (`aggregated_cost`, `from`, `to`). -/
def Command.cmp (a b : Command) : Ordering :=
  (a.aggregatedCost.cmp b.aggregatedCost).then
    ((a.from_.cmp b.from_).then (a.to_.cmp b.to_))

/-- `Iterator::cmp`: lexicographic comparison of two lists. -/
def listCmp : List Command → List Command → Ordering
  | [], [] => .eq
  | [], _ :: _ => .lt
  | _ :: _, [] => .gt
  | a :: as_, b :: bs => (a.cmp b).then (listCmp as_ bs)

/-- `CostComparator::comparator` from `src/cost.rs`. -/
def CostComparator.comparator : CostComparator → TotalCost → TotalCost → Ordering
  | .Legs, a, b => compare a.legs b.legs
  | .Money, a, b => compare a.money b.money
  | .Time, a, b => compare a.time b.time

/-- `CostComparator::probable_second_target` from `src/cost.rs`. -/
def CostComparator.probableSecondTarget : CostComparator → CostComparator
  | .Legs => .Time
  | .Time => .Legs
  | .Money => .Legs

/-- `CostComparator::eval_next` from `src/cost.rs`: promote a duplicated
secondary via `probable_second_target`, then pick the third metric from
the fixed six-entry table.  The Rust diagonal arm is `unreachable!()`
(after promotion `c ≠ self` always holds); it is modelled by the
(dead) `.Legs` fallback. -/
def CostComparator.evalNext (self : CostComparator) (c : CostComparator) :
    CostComparator × CostComparator :=
  let c := if self = c then c.probableSecondTarget else c
  (c,
    match self, c with
    | .Legs, .Time => .Money
    | .Legs, .Money => .Time
    | .Time, .Legs => .Money
    | .Time, .Money => .Legs
    | .Money, .Legs => .Time
    | .Money, .Time => .Legs
    | _, _ => .Legs)

/-- `CostComparator::and_then` from `src/cost.rs`: compare by the first,
second and third metric, then by the number of commands, then by the
command sequence lexicographically. -/
def CostComparator.andThen (self : CostComparator) (c2 : CostComparator)
    (t1 t2 : TotalCost) : Ordering :=
  let (c2, c3) := self.evalNext c2
  (((self.comparator t1 t2).then (c2.comparator t1 t2)).then
      (c3.comparator t1 t2)).then
    ((compare t1.commands.length t2.commands.length).then
      (listCmp t1.commands t2.commands))

/-! ## Skill scaling (`src/skill.rs`)

`time::Duration` is a signed seconds + sub-second value; it is modelled
here as the total number of nanoseconds (an `Int`).  `whole_seconds`
truncates toward zero, which on this model is `Int.tdiv` by `10^9`.
`Duration::seconds(s)` is `s * 10^9` nanoseconds. -/

/-- Nanoseconds per second. -/
def nanosPerSec : Int := 1000000000

/-- `Duration::whole_seconds`: truncation toward zero. -/
def durationWholeSeconds (nanos : Int) : Int := Int.tdiv nanos nanosPerSec

/-- `TryFrom<RouteGuru> for Ratio` from `src/skill.rs`: level 0 maps to
`1`, level 1 to `19/24`, anything else is an error. -/
def routeGuruRatio : Nat → Option ℚ
  | 0 => some 1
  | 1 => some (19 / 24)
  | _ => none

/-- `TryFrom<Fleetfoot> for Ratio` from `src/skill.rs`: level 0 maps to
`1`, level 1 to `50/53`, anything else is an error. -/
def fleetfootRatio : Nat → Option ℚ
  | 0 => some 1
  | 1 => some (50 / 53)
  | _ => none

/-- `Skill::time` from the `impl_skill!` macro in `src/skill.rs`: convert
the level to a ratio (failing outside the level table), return the
duration unchanged when the ratio is one, otherwise multiply the ratio by
`whole_seconds` of the duration, take the ceiling, and rebuild a
whole-second duration. -/
def skillTime (ratioOf : Nat → Option ℚ) (level : Nat) (t : Int) :
    Option Int :=
  match ratioOf level with
  | none => none
  | some ratio =>
      some (if ratio = 1 then t
        else ⌈ratio * (durationWholeSeconds t : ℚ)⌉ * nanosPerSec)

/-- Modelled from the spec: the behaviour claim C8 ascribes to
`Skill::time` at level 1, namely multiplying the (full) base duration by
the skill's rational constant and rounding up to the next whole second. -/
def specSkillTimeLevelOne (ratio : ℚ) (t : Int) : Int :=
  ⌈ratio * ((t : ℚ) / (nanosPerSec : ℚ))⌉ * nanosPerSec

/-! ## Pathfinder (`src/pathfinder.rs`)

`Graph` stores `const_edges` and `dyn_edges`
(`HashMap<CellIndex, HashMap<CellIndex, SmallVec<&EdgeCost>>>` in Rust),
modelled as flat lists of `(from, to, cost)` triples; the outgoing edges
of a vertex are recovered by filtering.  A `MapGrid` enters `Graph::new`
and `init_dynamic` only through `square_size` (equivalently the homeland
size), the list of cell indices, and the campfire cell of each homeland
(`grid.poi.get(&PoI::Campfire(h))` resolved through `grid.grid`), so the
graph builders take exactly those. -/

/-- One directed edge. -/
abbrev Edge := CellIndex × CellIndex × EdgeCost

/-- `Graph` from `src/pathfinder.rs`. -/
structure Graph where
  constEdges : List Edge
  dynEdges : List Edge
  deriving Repr

/-- `Homeland::iter` (strum declaration order). -/
def homelandIter : List Homeland := [.Blue, .Red, .Green, .Yellow]

/-- `Border::iter` (strum declaration order). -/
def borderIter : List Border := [.BR, .RG, .GY, .YB]

/-- The direction offsets `[(-1, 0), (1, 0), (0, -1), (0, 1)]` used for
homeland-interior adjacency in `Graph::new`. -/
def dirIter : List (Int × Int) := [(-1, 0), (1, 0), (0, -1), (0, 1)]

/-- The per-border adjacent-interior position computed inline in
`Graph::new`: `(1, i)` for a vertical border, `(i, 1)` for a horizontal
one (`adjacent_pos!` in `src/index.rs` is this same map). -/
def adjacentPos (d : BorderDirection) (i : Nat) : Pos :=
  match d with
  | .Horizontal => ⟨i, 1⟩
  | .Vertical => ⟨1, i⟩

/-- `CARAVAN_12_24` (24 minutes, 12 money). -/
def CARAVAN_12_24 : EdgeCost := .Caravan 1440 12

/-- `CARAVAN_30_24` (24 minutes, 30 money). -/
def CARAVAN_30_24 : EdgeCost := .Caravan 1440 30

/-- `CARAVAN_24_48` (48 minutes, 24 money). -/
def CARAVAN_24_48 : EdgeCost := .Caravan 2880 24

/-- `CARAVAN_60_48` (48 minutes, 60 money). -/
def CARAVAN_60_48 : EdgeCost := .Caravan 2880 60

/-- The `// process homelands` loop of `Graph::new`: interior standard
moves, one directed edge per in-range direction offset. -/
def constHomelandEdges (homelandSize : Nat) : List Edge :=
  homelandIter.flatMap fun h =>
    (List.range' 1 homelandSize).flatMap fun x =>
      (List.range' 1 homelandSize).flatMap fun y =>
        dirIter.filterMap fun d =>
          if 1 ≤ (x : Int) + d.1 ∧ (x : Int) + d.1 ≤ (homelandSize : Int) ∧
              1 ≤ (y : Int) + d.2 ∧ (y : Int) + d.2 ≤ (homelandSize : Int)
          then
            some (.Homeland h ⟨x, y⟩,
              .Homeland h ⟨((x : Int) + d.1).toNat, ((y : Int) + d.2).toNat⟩,
              .StandardMove)
          else none

/-- The `// process borders` loop of `Graph::new`: undirected standard
moves between each border cell and the two neighbouring homelands'
adjacent interior cells. -/
def constBorderEdges (homelandSize : Nat) : List Edge :=
  (List.range' 1 homelandSize).flatMap fun i =>
    borderIter.flatMap fun b =>
      [(.Border b i, .Homeland b.neighbours.1 (adjacentPos b.direction i),
         .StandardMove),
       (.Homeland b.neighbours.1 (adjacentPos b.direction i), .Border b i,
         .StandardMove),
       (.Border b i, .Homeland b.neighbours.2 (adjacentPos b.direction i),
         .StandardMove),
       (.Homeland b.neighbours.2 (adjacentPos b.direction i), .Border b i,
         .StandardMove)]

/-- The `// process center` loop of `Graph::new`: undirected central
moves between `Center` and each shift-1 border cell. -/
def constCenterEdges : List Edge :=
  borderIter.flatMap fun b =>
    [(.Center, .Border b 1, .CentralMove),
     (.Border b 1, .Center, .CentralMove)]

/-- The `// process caravans to center` loop of `Graph::new`: a caravan
from each present campfire to `Center`. -/
def constCampfireEdges (campfire : Homeland → Option CellIndex) :
    List Edge :=
  homelandIter.filterMap fun h =>
    (campfire h).map fun c => (c, .Center, CARAVAN_12_24)

/-- `Graph::new` from `src/pathfinder.rs`, building `const_edges` as the
four loops above, in program order.  `homelandSize` is
`(square_size - 1) / 2`; `campfire h` is the index of homeland `h`'s
campfire cell, when present. -/
def constEdgesOf (homelandSize : Nat)
    (campfire : Homeland → Option CellIndex) : List Edge :=
  constHomelandEdges homelandSize ++ constBorderEdges homelandSize
    ++ constCenterEdges ++ constCampfireEdges campfire

/-- `Graph::init_dynamic` from `src/pathfinder.rs`, building `dyn_edges`
for the player homeland: scroll-of-escape edges from every other cell to
the homeland campfire, and the caravan net between center, the homeland
campfire, the two neighbour campfires and the farland campfire. -/
def dynEdgesOf (cells : List CellIndex)
    (campfire : Homeland → Option CellIndex) (homeland : Homeland) :
    List Edge :=
  let neighbour1 := campfire homeland.neighbours.1
  let neighbour2 := campfire homeland.neighbours.2
  let farland := campfire homeland.farland
  (match campfire homeland with
   | some home =>
       ((cells.filter (· ≠ home)).map fun c => (c, home, .ScrollOfEscape))
       ++ [(.Center, home, CARAVAN_12_24)]
       ++ ([neighbour1, neighbour2].flatMap fun oc =>
           match oc with
           | some n => [(home, n, CARAVAN_30_24), (n, home, CARAVAN_12_24)]
           | none => [])
       ++ (match farland with
           | some f => [(home, f, CARAVAN_60_48), (f, home, CARAVAN_24_48)]
           | none => [])
   | none => [])
  ++ ([neighbour1, neighbour2].flatMap fun oc =>
      match oc, farland with
      | some n, some f => [(n, f, CARAVAN_30_24), (f, n, CARAVAN_30_24)]
      | _, _ => [])
  ++ (match neighbour1, neighbour2 with
      | some a, some b => [(a, b, CARAVAN_60_48), (b, a, CARAVAN_60_48)]
      | _, _ => [])
  ++ (([neighbour1, neighbour2].flatMap Option.toList ++ farland.toList).map
      fun enemy => (.Center, enemy, CARAVAN_30_24))

/-- The outgoing edges of a vertex: `const_edges.get(v)` chained with
`dyn_edges.get(v)`, flattened to `(target, cost)` pairs. -/
def Graph.outgoing (g : Graph) (v : CellIndex) :
    List (CellIndex × EdgeCost) :=
  (g.constEdges ++ g.dynEdges).filterMap fun e =>
    if e.1 = v then some (e.2.1, e.2.2) else none

/-- Association-list lookup standing in for `HashMap::get` on the `dist`
map (`insert` prepends, so the most recent binding wins). -/
def distGet (dist : List (CellIndex × TotalCost)) (k : CellIndex) :
    Option TotalCost :=
  (dist.find? fun p => p.1 = k).map (·.2)

/-- `HashMap::insert` on the `dist` map. -/
def distInsert (dist : List (CellIndex × TotalCost)) (k : CellIndex)
    (v : TotalCost) : List (CellIndex × TotalCost) :=
  (k, v) :: dist

/-- Popping the Rust `BinaryHeap` built over the reversed comparator: the
popped element is minimal for the forward comparator.  (The composite
comparator never returns `eq` on distinct values, so which minimal
occurrence is popped does not matter; the model pops the first-scanned
one.) -/
def heapPop (cmp : TotalCost → TotalCost → Ordering)
    (heap : List TotalCost) : Option (TotalCost × List TotalCost) :=
  match heap with
  | [] => none
  | x :: xs =>
      let m := xs.foldl (fun acc y => if cmp y acc = .lt then y else acc) x
      some (m, (x :: xs).erase m)

/-- Result of the search: `found c` models `Some(c)`, `exhausted` models
the queue running dry (`None`), `panicked` models the two `unwrap`/index
panics in the loop body (claim C10 shows it is unreachable), and
`outOfFuel` is an artifact of the fuel-indexed loop model. -/
inductive SearchResult where
  | found (cost : TotalCost)
  | exhausted
  | panicked
  | outOfFuel
  deriving DecidableEq, Repr

/-- The body of the relaxation loop of `Graph::find_path`: build `next`,
compare against the recorded distance of the edge target, push and record
on strict improvement. -/
def relaxStep (scrollOfEscapeCost : Nat)
    (cmp : TotalCost → TotalCost → Ordering) (cost : TotalCost)
    (lowestCostIndex : CellIndex)
    (st : List (CellIndex × TotalCost) × List TotalCost)
    (e : CellIndex × EdgeCost) :
    List (CellIndex × TotalCost) × List TotalCost :=
  let next := cost.addAssign (e.2, scrollOfEscapeCost,
    lowestCostIndex, e.1)
  match distGet st.1 e.1 with
  | some oldCost =>
      if cmp next oldCost = .lt then
        (distInsert st.1 e.1 next, next :: st.2)
      else st
  | none => (distInsert st.1 e.1 next, next :: st.2)

/-- One relaxation pass of `Graph::find_path`: fold the outgoing edges of
the popped vertex into `(dist, heap)`, pushing and recording any strict
improvement. -/
def relaxEdges (g : Graph) (scrollOfEscapeCost : Nat)
    (cmp : TotalCost → TotalCost → Ordering) (cost : TotalCost)
    (lowestCostIndex : CellIndex)
    (state : List (CellIndex × TotalCost) × List TotalCost) :
    List (CellIndex × TotalCost) × List TotalCost :=
  (g.outgoing lowestCostIndex).foldl
    (relaxStep scrollOfEscapeCost cmp cost lowestCostIndex) state

/-- The `while let Some(cost) = heap.pop()` loop of `Graph::find_path`,
fuel-indexed. -/
def findPathLoop (g : Graph) (scrollOfEscapeCost : Nat) (to_ : CellIndex)
    (cmp : TotalCost → TotalCost → Ordering) :
    Nat → List (CellIndex × TotalCost) → List TotalCost → SearchResult
  | 0, _, _ => .outOfFuel
  | fuel + 1, dist, heap =>
    match heapPop cmp heap with
    | none => .exhausted
    | some (cost, heapRest) =>
      match cost.commands.getLast? with
      | none => .panicked
      | some lastCmd =>
        let lowestCostIndex := lastCmd.to_
        if lowestCostIndex = to_ then .found cost
        else
          match distGet dist lowestCostIndex with
          | none => .panicked
          | some best =>
            if cmp cost best = .gt then
              findPathLoop g scrollOfEscapeCost to_ cmp fuel dist heapRest
            else
              let st := relaxEdges g scrollOfEscapeCost cmp cost
                lowestCostIndex (dist, heapRest)
              findPathLoop g scrollOfEscapeCost to_ cmp fuel st.1 st.2

/-- `Graph::find_path` from `src/pathfinder.rs`. -/
def Graph.findPath (g : Graph) (scrollOfEscapeCost : Nat)
    (from_ to_ : CellIndex) (c1 c2 : CostComparator) (fuel : Nat) :
    SearchResult :=
  if from_ = to_ then .found (TotalCost.new from_)
  else
    findPathLoop g scrollOfEscapeCost to_ (c1.andThen c2) fuel
      [(from_, TotalCost.new from_)] [TotalCost.new from_]

/-! ## Edge walks

The cost a sequence of edges accumulates, used to state what it means for
a `TotalCost` to describe a path of the graph: `walkCost` follows the
exact accumulation the pathfinder itself performs (one `+=` per edge) and
checks every step is an edge of the graph. -/

/-- Membership of a directed edge in the graph (`const_edges` or
`dyn_edges`). -/
def Graph.isEdge (g : Graph) (a b : CellIndex) (c : EdgeCost) : Bool :=
  (g.constEdges ++ g.dynEdges).contains (a, b, c)

/-- Accumulate a sequence of steps `(target, edge cost)` starting at a
vertex, failing unless every step is an edge of the graph. -/
def walkCost (g : Graph) (scrollOfEscapeCost : Nat) :
    CellIndex → List (CellIndex × EdgeCost) → TotalCost → Option TotalCost
  | _, [], acc => some acc
  | v, (t, c) :: rest, acc =>
      if g.isEdge v t c then
        walkCost g scrollOfEscapeCost t rest
          (acc.addAssign (c, scrollOfEscapeCost, v, t))
      else none

/-- The vertex a walk of `steps` starting at `from_` ends at: the target
of the last step, or `from_` for the empty walk. -/
def walkEndsAt (from_ : CellIndex)
    (steps : List (CellIndex × EdgeCost)) : CellIndex :=
  (steps.getLast?.map Prod.fst).getD from_

/-- The invariant of the search loop of `Graph::find_path` tying a
`(dist, heap)` state to the graph: every queued cost has a last command,
its destination is recorded in `dist`, and the cost is realised by an
edge walk of the graph from the source ending at that destination. -/
def LoopInv (g : Graph) (soe : Nat) (from_ : CellIndex)
    (dist : List (CellIndex × TotalCost)) (heap : List TotalCost) :
    Prop :=
  ∀ c ∈ heap, ∃ (cmd : Command) (steps : List (CellIndex × EdgeCost)),
    c.commands.getLast? = some cmd ∧
    (distGet dist cmd.to_).isSome = true ∧
    walkCost g soe from_ steps (TotalCost.new from_) = some c ∧
    walkEndsAt from_ steps = cmd.to_

/-- A sequence of steps each of which is an edge of the graph (the pure
reachability content of `walkCost`, independent of the accumulator). -/
def walkOk (g : Graph) : CellIndex → List (CellIndex × EdgeCost) → Bool
  | _, [] => true
  | v, (t, c) :: rest => g.isEdge v t c && walkOk g t rest

/-- Every outgoing edge of `v` leads to a vertex recorded in `dist`:
`v`'s relaxation has already happened (and `dist` only ever grows, so
this is stable). -/
def VertexDone (g : Graph) (dist : List (CellIndex × TotalCost))
    (v : CellIndex) : Prop :=
  ∀ e ∈ g.outgoing v, (distGet dist e.1).isSome = true

/-- The Dijkstra closure invariant of the search loop: every vertex
recorded in `dist` has either been relaxed already, or still owns a
non-stale heap entry (one the staleness check cannot skip) that will
relax it before the heap can empty. -/
def SearchInv (g : Graph) (cmp : TotalCost → TotalCost → Ordering)
    (dist : List (CellIndex × TotalCost)) (heap : List TotalCost) :
    Prop :=
  ∀ v dv, distGet dist v = some dv →
    VertexDone g dist v ∨
    ∃ c ∈ heap, ∃ cmd : Command, c.commands.getLast? = some cmd ∧
      cmd.to_ = v ∧ cmp c dv ≠ .gt

/-- `SearchInv` with the vertex currently being relaxed exempted: the
form the invariant takes while the relaxation fold is in flight. -/
def SearchInvL (g : Graph) (cmp : TotalCost → TotalCost → Ordering)
    (lci : CellIndex) (dist : List (CellIndex × TotalCost))
    (heap : List TotalCost) : Prop :=
  ∀ v dv, distGet dist v = some dv →
    v = lci ∨ VertexDone g dist v ∨
    ∃ c ∈ heap, ∃ cmd : Command, c.commands.getLast? = some cmd ∧
      cmd.to_ = v ∧ cmp c dv ≠ .gt

/-- While the search runs, a recorded distance for the target implies a
heap entry ending at the target — whose pop would return it, so an
exhausted run never recorded (hence never reached) the target. -/
def TargetInv (to_ : CellIndex) (dist : List (CellIndex × TotalCost))
    (heap : List TotalCost) : Prop :=
  (distGet dist to_).isSome = true →
    ∃ c ∈ heap, ∃ cmd : Command, c.commands.getLast? = some cmd ∧
      cmd.to_ = to_

/-! ## A concrete parsed topology (homeland size 5)

The grid of an 11×11 map page: homeland size `(11 - 1) / 2 = 5`, with the
campfires of Red and Blue at `(5,1)` (adjacent across border BR at shift
5) and those of Green and Yellow at `(5,1)` (adjacent across border GY at
shift 5).  The cell list enumerates every `CellIndex` of such a grid. -/

/-- All cell indices of a parsed grid with the given homeland size. -/
def allCellsOf (homelandSize : Nat) : List CellIndex :=
  [.Center]
  ++ (homelandIter.flatMap fun h =>
      (List.range' 1 homelandSize).flatMap fun x =>
        (List.range' 1 homelandSize).map fun y => .Homeland h ⟨x, y⟩)
  ++ (borderIter.flatMap fun b =>
      (List.range' 1 homelandSize).map fun i => .Border b i)

/-- Campfire placement of the homeland-size-5 example topology. -/
def cfX : Homeland → Option CellIndex := fun h =>
  match h with
  | .Red => some (.Homeland .Red ⟨5, 1⟩)
  | .Blue => some (.Homeland .Blue ⟨5, 1⟩)
  | .Green => some (.Homeland .Green ⟨5, 1⟩)
  | .Yellow => some (.Homeland .Yellow ⟨5, 1⟩)

/-- The graph `Graph::new` + `init_dynamic` (player homeland Red) builds
on the example topology. -/
def gX : Graph := ⟨constEdgesOf 5 cfX, dynEdgesOf (allCellsOf 5) cfX .Red⟩

/-- Source cell of the C1 counterexample: Red's campfire. -/
def fromX : CellIndex := .Homeland .Red ⟨5, 1⟩

/-- Target cell of the C1 counterexample: the Yellow cell `(5,2)` one
step behind Yellow's campfire. -/
def wX : CellIndex := .Homeland .Yellow ⟨5, 2⟩

/-- The edge walk `find_path` misses: caravan from Red's campfire to
Green's campfire, then three standard moves across border GY to `wX`. -/
def betterSteps : List (CellIndex × EdgeCost) :=
  [(.Homeland .Green ⟨5, 1⟩, .Caravan 1440 30),
   (.Border .GY 5, .StandardMove),
   (.Homeland .Yellow ⟨5, 1⟩, .StandardMove),
   (.Homeland .Yellow ⟨5, 2⟩, .StandardMove)]

/-- The cost `find_path` actually returns on the C1 counterexample: walk
to Blue's campfire, caravan to Yellow's campfire, one more step — three
commands. -/
def foundX : TotalCost :=
  { legs := 3, money := 30, time := 1980
    commands := [⟨.StandardMove 360 2, .Homeland .Red ⟨5, 1⟩,
                   .Homeland .Blue ⟨5, 1⟩⟩,
                 ⟨.Caravan 1440 30, .Homeland .Blue ⟨5, 1⟩,
                   .Homeland .Yellow ⟨5, 1⟩⟩,
                 ⟨.StandardMove 180 1, .Homeland .Yellow ⟨5, 1⟩,
                   .Homeland .Yellow ⟨5, 2⟩⟩] }

/-- The cost of `betterSteps`: the same legs, money and time, in two
commands — strictly smaller under the composite ordering. -/
def betterX : TotalCost :=
  { legs := 3, money := 30, time := 1980
    commands := [⟨.Caravan 1440 30, .Homeland .Red ⟨5, 1⟩,
                   .Homeland .Green ⟨5, 1⟩⟩,
                 ⟨.StandardMove 540 3, .Homeland .Green ⟨5, 1⟩,
                   .Homeland .Yellow ⟨5, 2⟩⟩] }

/-! ## Textual cell names (`src/index.rs`, `src/homeland.rs`)

`Display for CellIndex` and `FromStr for CellIndex`, modelled on
character lists.  Numbers print in decimal (`u8` display) and parse as
`u8` (digits after an optional leading `+`, value at most 255, at least
one digit). -/

/-- Decimal digits of a positive number, most significant first; the
fuel argument (any value at least the number itself) makes the division
recursion structural. -/
def natToCharsAux : Nat → Nat → List Char
  | 0, _ => []
  | _ + 1, 0 => []
  | fuel + 1, n + 1 =>
      natToCharsAux fuel ((n + 1) / 10) ++ [Nat.digitChar ((n + 1) % 10)]

/-- Decimal digits of a natural number, most significant first (`u8`
display; `0` prints as `"0"`). -/
def natToChars (n : Nat) : List Char :=
  if n = 0 then ['0'] else natToCharsAux n n

/-- Digit-by-digit accumulation of `u8::from_str`, failing on a non-digit
or on overflow past 255. -/
def parseU8Digits : List Char → Nat → Option Nat
  | [], acc => some acc
  | c :: rest, acc =>
      if c.isDigit then
        let v := acc * 10 + (c.toNat - '0'.toNat)
        if v ≤ 255 then parseU8Digits rest v else none
      else none

/-- `u8::from_str`: an optional leading `+`, then at least one digit,
value at most 255. -/
def parseU8 : List Char → Option Nat
  | [] => none
  | '+' :: rest => if rest = [] then none else parseU8Digits rest 0
  | cs => parseU8Digits cs 0

/-- `split_once(sep)`: split at the first occurrence of `sep`. -/
def splitOnce (sep : Char) : List Char → Option (List Char × List Char)
  | [] => none
  | c :: rest =>
      if c = sep then some ([], rest)
      else (splitOnce sep rest).map fun p => (c :: p.1, p.2)

/-- `Homeland::as_abbrev`. -/
def Homeland.asAbbrev : Homeland → Char
  | .Blue => 'B'
  | .Red => 'R'
  | .Green => 'G'
  | .Yellow => 'Y'

/-- `FromStr for Homeland`. -/
def homelandFromChars : List Char → Option Homeland
  | ['B'] => some .Blue
  | ['R'] => some .Red
  | ['G'] => some .Green
  | ['Y'] => some .Yellow
  | _ => none

/-- The `IntoStaticStr`/`Display` name of a border. -/
def Border.chars : Border → List Char
  | .BR => ['B', 'R']
  | .RG => ['R', 'G']
  | .GY => ['G', 'Y']
  | .YB => ['Y', 'B']

/-- `FromStr for Border`. -/
def borderFromChars : List Char → Option Border
  | ['B', 'R'] => some .BR
  | ['R', 'G'] => some .RG
  | ['G', 'Y'] => some .GY
  | ['Y', 'B'] => some .YB
  | _ => none

/-- `Display for Pos` (`"x#y"`). -/
def Pos.chars (p : Pos) : List Char :=
  natToChars p.x ++ ['#'] ++ natToChars p.y

/-- `FromStr for Pos`: split at the first `#`, parse both halves as
`u8`. -/
def posFromChars (cs : List Char) : Option Pos := do
  let (xs, ys) ← splitOnce '#' cs
  let x ← parseU8 xs
  let y ← parseU8 ys
  some ⟨x, y⟩

/-- `Display for CellIndex`. -/
def CellIndex.chars : CellIndex → List Char
  | .Center => ['0', '#', '0']
  | .Homeland h p => [h.asAbbrev, ' '] ++ p.chars
  | .Border b s => b.chars ++ [' '] ++ natToChars s

/-- `parse_as_homeland` from `src/index.rs` (goes through the builder). -/
def parseAsHomeland (left right : List Char) : Option CellIndex := do
  let h ← homelandFromChars left
  let p ← posFromChars right
  some (CellIndexBuilder.build (.Homeland h p))

/-- `parse_as_border` from `src/index.rs` (goes through the builder). -/
def parseAsBorder (left right : List Char) : Option CellIndex := do
  let b ← borderFromChars left
  let s ← parseU8 right
  some (CellIndexBuilder.build (.Border b s))

/-- `FromStr for CellIndex`: `"0#0"` is `Center`; otherwise split at the
first space and try homeland, then border. -/
def cellIndexFromChars (s : List Char) : Option CellIndex :=
  if s = ['0', '#', '0'] then some .Center
  else
    match splitOnce ' ' s with
    | none => none
    | some (left, right) =>
        (parseAsHomeland left right).orElse fun _ => parseAsBorder left right

/-- `Graph::new` itself: only `const_edges` is filled, `dyn_edges` stays
at its `Default` (empty). -/
def Graph.newOf (homelandSize : Nat)
    (campfire : Homeland → Option CellIndex) : Graph :=
  ⟨constEdgesOf homelandSize campfire, []⟩

/-- Campfires at position `(1,1)` of each homeland (the layout used by
the C2 counterexample, on a homeland-size-2 grid). -/
def cfSmall : Homeland → Option CellIndex :=
  fun h => some (.Homeland h ⟨1, 1⟩)

/-! ## Comparator lawfulness apparatus (for claim C3)

The derived `Ord` comparisons are reflected into lexicographic tuples of
linear-order keys so that transitivity and antisymmetry can be proved
compositionally. -/

/-- Lawfulness of an `Ordering`-valued comparator: antisymmetry through
`swap`, transitivity of `lt`, and left congruence of `eq`. -/
def CmpLawful {α : Type} (cmp : α → α → Ordering) : Prop :=
  (∀ a b, (cmp a b).swap = cmp b a) ∧
  (∀ a b c, cmp a b = .lt → cmp b c = .lt → cmp a c = .lt) ∧
  (∀ a b c, cmp a b = .eq → cmp a c = cmp b c)

/-- A lawful comparator that values `eq` only on equal arguments. -/
def CmpStrict {α : Type} (cmp : α → α → Ordering) : Prop :=
  CmpLawful cmp ∧ ∀ a b, cmp a b = .eq ↔ a = b

/-- Tuple reflection of the derived `Ord` on `AggregatedCost`:
constructor index, time, then the remaining numeric field. -/
def AggregatedCost.enc : AggregatedCost → Nat × Int × Nat
  | .NoMove => (0, 0, 0)
  | .CentralMove t => (1, t, 0)
  | .StandardMove t l => (2, t, l)
  | .Caravan t m => (3, t, m)
  | .ScrollOfEscape m => (4, 0, m)

/-- Tuple reflection of the derived `Ord` on `CellIndex`: constructor
index, inner enum index, then the numeric coordinates. -/
def CellIndex.enc : CellIndex → Nat × Nat × Nat × Nat
  | .Center => (0, 0, 0, 0)
  | .Homeland h p => (1, h.toCtorIdx, p.x, p.y)
  | .Border b s => (2, b.toCtorIdx, s, 0)

/-! ## Helper lemmas -/

theorem AggregatedCost.ofEdge_legs (e : EdgeCost) (s : Nat) :
    (AggregatedCost.ofEdge e s).legs = e.legs := by
  cases e <;> rfl

theorem AggregatedCost.ofEdge_money (e : EdgeCost) (s : Nat) :
    (AggregatedCost.ofEdge e s).money = e.money s := by
  cases e <;> rfl

theorem AggregatedCost.ofEdge_time (e : EdgeCost) (s : Nat) :
    (AggregatedCost.ofEdge e s).time = e.time := by
  cases e <;> rfl

/-- `+=` on an empty command list: append a fresh command. -/
theorem TotalCost.addAssign_empty (t : TotalCost)
    (ec : EdgeCost) (soe : Nat) (f to_ : CellIndex)
    (h : t.commands.getLast? = none) :
    t.addAssign (ec, soe, f, to_) =
      { legs := t.legs + ec.legs, money := t.money + ec.money soe
        time := t.time + ec.time
        commands := t.commands ++ [⟨.ofEdge ec soe, f, to_⟩] } := by
  unfold TotalCost.addAssign
  rw [h]

/-- `+=` after a trailing `NoMove`: replace it, reusing its `from`. -/
theorem TotalCost.addAssign_noMove (t : TotalCost)
    (ec : EdgeCost) (soe : Nat) (cf ct f to_ : CellIndex)
    (h : t.commands.getLast? = some ⟨.NoMove, cf, ct⟩) :
    t.addAssign (ec, soe, f, to_) =
      { legs := t.legs + ec.legs, money := t.money + ec.money soe
        time := t.time + ec.time
        commands := t.commands.dropLast ++ [⟨.ofEdge ec soe, cf, to_⟩] } := by
  unfold TotalCost.addAssign
  rw [h]

/-- `+=` of a `StandardMove` after a trailing `StandardMove`: merge. -/
theorem TotalCost.addAssign_merge (t : TotalCost)
    (soe : Nat) (pt : Int) (pl : Nat) (cf ct f to_ : CellIndex)
    (h : t.commands.getLast? = some ⟨.StandardMove pt pl, cf, ct⟩) :
    t.addAssign (.StandardMove, soe, f, to_) =
      { legs := t.legs + 1, money := t.money
        time := t.time + 180
        commands := t.commands.dropLast ++
          [⟨.StandardMove (pt + 180) (pl + 1), cf, to_⟩] } := by
  unfold TotalCost.addAssign
  rw [h]
  rfl

/-- `+=` in the remaining cases: append a fresh command. -/
theorem TotalCost.addAssign_append (t : TotalCost)
    (ec : EdgeCost) (soe : Nat) (last : Command) (f to_ : CellIndex)
    (h : t.commands.getLast? = some last)
    (hnm : last.aggregatedCost ≠ .NoMove)
    (hsm : (∃ pt pl, last.aggregatedCost = .StandardMove pt pl) →
      ec ≠ .StandardMove) :
    t.addAssign (ec, soe, f, to_) =
      { legs := t.legs + ec.legs, money := t.money + ec.money soe
        time := t.time + ec.time
        commands := t.commands ++ [⟨.ofEdge ec soe, f, to_⟩] } := by
  unfold TotalCost.addAssign
  rw [h]
  obtain ⟨ac, cf, ct⟩ := last
  cases ac with
  | NoMove => exact absurd rfl hnm
  | StandardMove pt pl =>
    cases ec with
    | StandardMove => exact absurd rfl (hsm ⟨pt, pl, rfl⟩)
    | NoMove => rfl
    | CentralMove => rfl
    | Caravan ti mo => rfl
    | ScrollOfEscape => rfl
  | CentralMove pt => cases ec <;> rfl
  | Caravan pt pm => cases ec <;> rfl
  | ScrollOfEscape pm => cases ec <;> rfl

/-- The command list after `+=` always ends in a command whose `to` is
the target of the added edge. -/
theorem TotalCost.addAssign_getLast_to (t : TotalCost)
    (ec : EdgeCost) (soe : Nat) (f to_ : CellIndex) :
    ∃ cmd : Command,
      (t.addAssign (ec, soe, f, to_)).commands.getLast? = some cmd ∧
      cmd.to_ = to_ := by
  rcases h : t.commands.getLast? with _ | ⟨⟨ac, cf, ct⟩⟩
  · rw [t.addAssign_empty ec soe f to_ h]
    exact ⟨⟨.ofEdge ec soe, f, to_⟩, by simp, rfl⟩
  · cases ac with
    | NoMove =>
      rw [t.addAssign_noMove ec soe cf ct f to_ h]
      exact ⟨⟨.ofEdge ec soe, cf, to_⟩, by simp, rfl⟩
    | StandardMove pt pl =>
      cases ec with
      | StandardMove =>
        rw [t.addAssign_merge soe pt pl cf ct f to_ h]
        exact ⟨⟨.StandardMove (pt + 180) (pl + 1), cf, to_⟩, by simp, rfl⟩
      | NoMove =>
        rw [t.addAssign_append _ soe _ f to_ h (by simp) (by simp)]
        exact ⟨⟨.ofEdge .NoMove soe, f, to_⟩, by simp, rfl⟩
      | CentralMove =>
        rw [t.addAssign_append _ soe _ f to_ h (by simp) (by simp)]
        exact ⟨⟨.ofEdge .CentralMove soe, f, to_⟩, by simp, rfl⟩
      | Caravan ti mo =>
        rw [t.addAssign_append _ soe _ f to_ h (by simp) (by simp)]
        exact ⟨⟨.ofEdge (.Caravan ti mo) soe, f, to_⟩, by simp, rfl⟩
      | ScrollOfEscape =>
        rw [t.addAssign_append _ soe _ f to_ h (by simp) (by simp)]
        exact ⟨⟨.ofEdge .ScrollOfEscape soe, f, to_⟩, by simp, rfl⟩
    | CentralMove pt =>
      rw [t.addAssign_append ec soe _ f to_ h (by simp) (by simp)]
      exact ⟨⟨.ofEdge ec soe, f, to_⟩, by simp, rfl⟩
    | Caravan pt pm =>
      rw [t.addAssign_append ec soe _ f to_ h (by simp) (by simp)]
      exact ⟨⟨.ofEdge ec soe, f, to_⟩, by simp, rfl⟩
    | ScrollOfEscape pm =>
      rw [t.addAssign_append ec soe _ f to_ h (by simp) (by simp)]
      exact ⟨⟨.ofEdge ec soe, f, to_⟩, by simp, rfl⟩

/-- A canonical-position homeland builder is the identity. -/
theorem build_homeland_pos (h : Homeland) (x y : Nat) (hx : 1 ≤ x)
    (hy : 1 ≤ y) :
    (CellIndexBuilder.Homeland h ⟨x, y⟩).build = .Homeland h ⟨x, y⟩ := by
  cases h <;> rcases x with _ | x <;> rcases y with _ | y <;>
    first
      | rfl
      | omega

/-- A positive-shift border builder is the identity. -/
theorem build_border_pos (b : Border) (s : Nat) (hs : 1 ≤ s) :
    (CellIndexBuilder.Border b s).build = .Border b s := by
  cases b <;> rcases s with _ | s <;>
    first
      | rfl
      | omega

/-! ## Claim theorems -/

/-- C5: starting from `TotalCost::new(origin)` and accumulating three
consecutive `StandardMove` edges with `+=`, the resulting command list is
a single `Command` from `origin` to the final cell whose aggregated cost
is `StandardMove` with `legs = 3` and `time = 3 × 180` seconds (three
times the fixed 3-minute per-step time). -/
theorem C5_three_standard_moves_merge (origin a b c : CellIndex)
    (s1 s2 s3 : Nat) :
    ((((TotalCost.new origin).addAssign (.StandardMove, s1, origin, a)
        ).addAssign (.StandardMove, s2, a, b)).addAssign
        (.StandardMove, s3, b, c)).commands =
      [⟨.StandardMove (3 * 180) 3, origin, c⟩] :=
  rfl

/-- C6: the builder canonicalises a homeland cell: `(0,0)` becomes
`Center`; a position with exactly one zero coordinate becomes the border
adjoining the homeland on the zeroed axis (vertical border for `x = 0`,
horizontal for `y = 0`) at the remaining coordinate; otherwise the
homeland cell passes through unchanged — hence no `Homeland` value with a
zero coordinate is ever built. -/
theorem C6_builder_canonicalisation (h : Homeland) (x y : Nat) :
    ((CellIndexBuilder.Homeland h ⟨x, y⟩).build =
      (if x = 0 then
        (if y = 0 then CellIndex.Center
         else CellIndex.Border (h.neighbour .Vertical) y)
       else if y = 0 then CellIndex.Border (h.neighbour .Horizontal) x
       else CellIndex.Homeland h ⟨x, y⟩)) ∧
    (∀ h' p', (CellIndexBuilder.Homeland h ⟨x, y⟩).build =
        CellIndex.Homeland h' p' → p'.x ≠ 0 ∧ p'.y ≠ 0) := by
  constructor
  · cases h <;> rcases x with _ | x <;> rcases y with _ | y <;>
      simp [CellIndexBuilder.build, Homeland.neighbour]
  · intro h' p' heq
    cases h <;> rcases x with _ | x <;> rcases y with _ | y <;>
      simp [CellIndexBuilder.build] at heq <;>
      simp [← heq.2]

/-- Witness for C6 at concrete inputs. -/
theorem C6_builder_canonicalisation_witness :
    (CellIndexBuilder.Homeland .Red ⟨0, 5⟩).build = CellIndex.Border .RG 5 ∧
    ((3 : Nat) ≠ 0 ∧ (4 : Nat) ≠ 0) := by
  refine ⟨?_, (C6_builder_canonicalisation .Red 3 4).2 .Red ⟨3, 4⟩ (by decide)⟩
  have := (C6_builder_canonicalisation .Red 0 5).1
  simpa using this

/-- C9: `find_path(x, x, …)` immediately returns `TotalCost::new(x)`
for every graph, scroll cost, comparator pair and fuel: a cost with
`legs = 0`, `money = 0`, `time = 0` and exactly one `NoMove` command from
`x` to `x`. -/
theorem C9_trivial_path (g : Graph) (soe : Nat) (x : CellIndex)
    (c1 c2 : CostComparator) (fuel : Nat) :
    g.findPath soe x x c1 c2 fuel = .found (TotalCost.new x) ∧
    (TotalCost.new x).legs = 0 ∧ (TotalCost.new x).money = 0 ∧
    (TotalCost.new x).time = 0 ∧
    (TotalCost.new x).commands = [⟨.NoMove, x, x⟩] :=
  ⟨by simp [Graph.findPath], rfl, rfl, rfl, rfl⟩

/-- C8 counterexample: on the base duration 1.5 s (1 500 000 000 ns) at
level 1, `Skill::time` for RouteGuru returns 1 s (it multiplies only the
whole-second part, `whole_seconds(1.5 s) = 1`, and `⌈19/24⌉ = 1`), while
the claimed "multiply the base duration and round up" yields
`⌈19/24 · 1.5⌉ = 2` s. -/
theorem C8_counterexample :
    skillTime routeGuruRatio 1 1500000000 = some 1000000000 ∧
    specSkillTimeLevelOne (19 / 24) 1500000000 = 2000000000 ∧
    skillTime routeGuruRatio 1 1500000000 ≠
      some (specSkillTimeLevelOne (19 / 24) 1500000000) := by
  have h1 : (⌈(19 / 24 : ℚ)⌉ : Int) = 1 := by
    rw [Int.ceil_eq_iff]
    norm_num
  have h2 : (⌈(19 / 16 : ℚ)⌉ : Int) = 2 := by
    rw [Int.ceil_eq_iff]
    norm_num
  refine ⟨?_, ?_, ?_⟩ <;>
    norm_num [skillTime, routeGuruRatio, specSkillTimeLevelOne,
      durationWholeSeconds, nanosPerSec, Int.tdiv, h1, h2]

/-- C8 amended: for both skills, level 0 returns the base duration
unchanged and levels outside {0, 1} return `None`, exactly as claimed; at
level 1 the skill multiplies the *whole-second part* of the base duration
(sub-second precision is truncated first) by its exact rational constant
(19/24 for RouteGuru, 50/53 for Fleetfoot) and rounds up to the next
whole second — which agrees with the claimed "multiply the base duration
and round up" whenever the base duration is a whole number of seconds. -/
theorem C8_amended (level : Nat) (t : Int) :
    (level = 0 → skillTime routeGuruRatio level t = some t ∧
      skillTime fleetfootRatio level t = some t) ∧
    (level = 1 →
      skillTime routeGuruRatio level t =
        some (⌈(19 / 24 : ℚ) * (durationWholeSeconds t : ℚ)⌉ * nanosPerSec) ∧
      skillTime fleetfootRatio level t =
        some (⌈(50 / 53 : ℚ) * (durationWholeSeconds t : ℚ)⌉ * nanosPerSec) ∧
      (∀ s : Int, t = s * nanosPerSec →
        skillTime routeGuruRatio level t =
          some (specSkillTimeLevelOne (19 / 24) t) ∧
        skillTime fleetfootRatio level t =
          some (specSkillTimeLevelOne (50 / 53) t))) ∧
    (2 ≤ level →
      skillTime routeGuruRatio level t = none ∧
      skillTime fleetfootRatio level t = none) := by
  refine ⟨?_, ?_, ?_⟩
  · rintro rfl
    constructor <;> norm_num [skillTime, routeGuruRatio, fleetfootRatio]
  · rintro rfl
    have hrg : skillTime routeGuruRatio 1 t =
        some (⌈(19 / 24 : ℚ) * (durationWholeSeconds t : ℚ)⌉ * nanosPerSec) := by
      norm_num [skillTime, routeGuruRatio]
    have hff : skillTime fleetfootRatio 1 t =
        some (⌈(50 / 53 : ℚ) * (durationWholeSeconds t : ℚ)⌉ * nanosPerSec) := by
      norm_num [skillTime, fleetfootRatio]
    refine ⟨hrg, hff, ?_⟩
    rintro s rfl
    have hds : durationWholeSeconds (s * nanosPerSec) = s := by
      unfold durationWholeSeconds
      exact Int.mul_tdiv_cancel s (by norm_num [nanosPerSec])
    have harg : ((s * nanosPerSec : Int) : ℚ) / ((nanosPerSec : Int) : ℚ) =
        (s : ℚ) := by
      push_cast [nanosPerSec]
      rw [mul_div_assoc]
      norm_num
    constructor
    · rw [hrg, hds]
      unfold specSkillTimeLevelOne
      rw [harg]
    · rw [hff, hds]
      unfold specSkillTimeLevelOne
      rw [harg]
  · intro hlevel
    match level, hlevel with
    | n + 2, _ => exact ⟨rfl, rfl⟩

/-- Witness for C8 amended at level 1 and a whole-second duration. -/
theorem C8_amended_witness :
    skillTime routeGuruRatio 1 (1800 * nanosPerSec) =
      some (specSkillTimeLevelOne (19 / 24) (1800 * nanosPerSec)) := by
  have := ((C8_amended 1 (1800 * nanosPerSec)).2.1 rfl).2.2 1800 rfl
  exact this.1

/-- C4: after any sequence of `+=` accumulations starting from
`TotalCost::new(origin)`, the running `legs`, `money` and `time` fields
equal the component-wise sums of the aggregated costs of the commands. -/
theorem C4_totals_invariant (origin : CellIndex)
    (ops : List (EdgeCost × Nat × CellIndex × CellIndex)) :
    (ops.foldl TotalCost.addAssign (TotalCost.new origin)).legs =
      (((ops.foldl TotalCost.addAssign (TotalCost.new origin)).commands.map
        fun c => c.aggregatedCost.legs).sum) ∧
    (ops.foldl TotalCost.addAssign (TotalCost.new origin)).money =
      (((ops.foldl TotalCost.addAssign (TotalCost.new origin)).commands.map
        fun c => c.aggregatedCost.money).sum) ∧
    (ops.foldl TotalCost.addAssign (TotalCost.new origin)).time =
      (((ops.foldl TotalCost.addAssign (TotalCost.new origin)).commands.map
        fun c => c.aggregatedCost.time).sum) := by
  suffices H : ∀ (l : List (EdgeCost × Nat × CellIndex × CellIndex))
      (t : TotalCost),
      (t.legs = (t.commands.map fun c => c.aggregatedCost.legs).sum ∧
       t.money = (t.commands.map fun c => c.aggregatedCost.money).sum ∧
       t.time = (t.commands.map fun c => c.aggregatedCost.time).sum) →
      ((l.foldl TotalCost.addAssign t).legs =
        (((l.foldl TotalCost.addAssign t).commands.map
          fun c => c.aggregatedCost.legs).sum) ∧
       (l.foldl TotalCost.addAssign t).money =
        (((l.foldl TotalCost.addAssign t).commands.map
          fun c => c.aggregatedCost.money).sum) ∧
       (l.foldl TotalCost.addAssign t).time =
        (((l.foldl TotalCost.addAssign t).commands.map
          fun c => c.aggregatedCost.time).sum)) by
    exact H ops (TotalCost.new origin)
      (by simp [TotalCost.new, AggregatedCost.legs, AggregatedCost.money,
        AggregatedCost.time])
  intro l
  induction l with
  | nil => intro t ht; simpa using ht
  | cons a l ih =>
    intro t ht
    refine ih (t.addAssign a) ?_
    obtain ⟨hl, hm, hti⟩ := ht
    obtain ⟨ec, soe, f, to_⟩ := a
    rcases hlast : t.commands.getLast? with _ | ⟨ac, cf, ct⟩
    · rw [t.addAssign_empty ec soe f to_ hlast]
      simp [hl, hm, hti, AggregatedCost.ofEdge_legs,
        AggregatedCost.ofEdge_money, AggregatedCost.ofEdge_time]
    · have hne : t.commands ≠ [] := by
        intro h
        rw [h] at hlast
        simp at hlast
      have hsplit : t.commands.dropLast ++ [(⟨ac, cf, ct⟩ : Command)] =
          t.commands := by
        have h1 := List.dropLast_append_getLast hne
        have h2 : t.commands.getLast hne = ⟨ac, cf, ct⟩ := by
          have h3 := List.getLast?_eq_getLast t.commands hne
          rw [hlast] at h3
          exact (Option.some_injective _ h3.symm)
        rw [h2] at h1
        exact h1
      have hsum : ∀ (f_ : Command → Nat),
          (t.commands.map f_).sum =
            (t.commands.dropLast.map f_).sum + f_ ⟨ac, cf, ct⟩ := by
        intro f_
        conv_lhs => rw [← hsplit]
        simp
      have hsumz : ∀ (f_ : Command → Int),
          (t.commands.map f_).sum =
            (t.commands.dropLast.map f_).sum + f_ ⟨ac, cf, ct⟩ := by
        intro f_
        conv_lhs => rw [← hsplit]
        simp
      rcases ac with _ | pt | ⟨pt, pl⟩ | ⟨pt, pm⟩ | pm
      · rw [t.addAssign_noMove ec soe cf ct f to_ hlast]
        simp [hl, hm, hti, hsum, hsumz, AggregatedCost.ofEdge_legs,
          AggregatedCost.ofEdge_money, AggregatedCost.ofEdge_time,
          show AggregatedCost.NoMove.legs = 0 from rfl,
          show AggregatedCost.NoMove.money = 0 from rfl,
          show AggregatedCost.NoMove.time = 0 from rfl]
      · rw [t.addAssign_append ec soe _ f to_ hlast (by simp) (by simp)]
        simp [hl, hm, hti, hsum, hsumz, AggregatedCost.ofEdge_legs,
          AggregatedCost.ofEdge_money, AggregatedCost.ofEdge_time]
      · cases ec with
        | StandardMove =>
          rw [t.addAssign_merge soe pt pl cf ct f to_ hlast]
          refine ⟨?_, ?_, ?_⟩ <;>
            simp [hl, hm, hti, hsum, hsumz, AggregatedCost.legs,
              AggregatedCost.money, AggregatedCost.time, EdgeCost.legs,
              EdgeCost.money, EdgeCost.time] <;>
            ring
        | NoMove =>
          rw [t.addAssign_append _ soe _ f to_ hlast (by simp) (by simp)]
          simp [hl, hm, hti, hsum, hsumz, AggregatedCost.ofEdge_legs,
            AggregatedCost.ofEdge_money, AggregatedCost.ofEdge_time]
        | CentralMove =>
          rw [t.addAssign_append _ soe _ f to_ hlast (by simp) (by simp)]
          simp [hl, hm, hti, hsum, hsumz, AggregatedCost.ofEdge_legs,
            AggregatedCost.ofEdge_money, AggregatedCost.ofEdge_time]
        | Caravan ti mo =>
          rw [t.addAssign_append _ soe _ f to_ hlast (by simp) (by simp)]
          simp [hl, hm, hti, hsum, hsumz, AggregatedCost.ofEdge_legs,
            AggregatedCost.ofEdge_money, AggregatedCost.ofEdge_time]
        | ScrollOfEscape =>
          rw [t.addAssign_append _ soe _ f to_ hlast (by simp) (by simp)]
          simp [hl, hm, hti, hsum, hsumz, AggregatedCost.ofEdge_legs,
            AggregatedCost.ofEdge_money, AggregatedCost.ofEdge_time]
      · rw [t.addAssign_append ec soe _ f to_ hlast (by simp) (by simp)]
        simp [hl, hm, hti, hsum, hsumz, AggregatedCost.ofEdge_legs,
          AggregatedCost.ofEdge_money, AggregatedCost.ofEdge_time]
      · rw [t.addAssign_append ec soe _ f to_ hlast (by simp) (by simp)]
        simp [hl, hm, hti, hsum, hsumz, AggregatedCost.ofEdge_legs,
          AggregatedCost.ofEdge_money, AggregatedCost.ofEdge_time]

theorem filterMap_flatMap_eq {α β γ : Type} (l : List α) (g : α → List β)
    (f : β → Option γ) :
    (l.flatMap g).filterMap f = l.flatMap fun a => (g a).filterMap f := by
  induction l with
  | nil => rfl
  | cons a l ih => simp [List.flatMap_cons, List.filterMap_append, ih]

theorem flatMap_eq_of_single {α β : Type} [DecidableEq α] (l : List α)
    (s : α) (f : α → List β) (hf : ∀ i, i ≠ s → f i = [])
    (hnd : l.Nodup) (hmem : s ∈ l) :
    l.flatMap f = f s := by
  induction l with
  | nil => cases hmem
  | cons a l ih =>
    rcases List.mem_cons.mp hmem with rfl | hmem2
    · have hrest : l.flatMap f = [] := by
        apply List.flatMap_eq_nil_iff.mpr
        intro i hi
        exact hf i fun his => (List.nodup_cons.mp hnd).1 (his ▸ hi)
      simp [List.flatMap_cons, hrest]
    · have ha : a ≠ s := by
        rintro rfl
        exact (List.nodup_cons.mp hnd).1 hmem2
      simp [List.flatMap_cons, hf a ha,
        ih (List.nodup_cons.mp hnd).2 hmem2]

/-- C2 counterexample: on the homeland-size-2 topology with campfires at
`(1,1)`, `Graph::new` gives the border cell `BR 2` no `StandardMove` edge
toward the shift-1 border cell, and `BR 1` no edge toward shift 2 — the
along-border walking edges the claim describes do not exist. -/
theorem C2_counterexample :
    (CellIndex.Border .BR 1, EdgeCost.StandardMove) ∉
      (Graph.newOf 2 cfSmall).outgoing (.Border .BR 2) ∧
    (CellIndex.Border .BR 2, EdgeCost.StandardMove) ∉
      (Graph.newOf 2 cfSmall).outgoing (.Border .BR 1) := by
  constructor <;> decide

theorem constHomelandEdges_filter_border (hs : Nat) (b : Border)
    (shift : Nat) :
    ((constHomelandEdges hs).filterMap fun e : Edge =>
      if e.1 = CellIndex.Border b shift then some (e.2.1, e.2.2)
      else none) = [] := by
  apply List.filterMap_eq_nil_iff.mpr
  intro e he
  unfold constHomelandEdges at he
  simp only [List.mem_flatMap, List.mem_filterMap] at he
  obtain ⟨h, -, x, -, y, -, d, -, he⟩ := he
  split at he
  · cases he
    simp
  · cases he

theorem constBorderEdges_filter_border (hs : Nat) (b : Border)
    (shift : Nat) (h1 : 1 ≤ shift) (h2 : shift ≤ hs) :
    ((constBorderEdges hs).filterMap fun e : Edge =>
      if e.1 = CellIndex.Border b shift then some (e.2.1, e.2.2)
      else none) =
      [(.Homeland b.neighbours.1 (adjacentPos b.direction shift),
         .StandardMove),
       (.Homeland b.neighbours.2 (adjacentPos b.direction shift),
         .StandardMove)] := by
  unfold constBorderEdges
  rw [filterMap_flatMap_eq]
  rw [flatMap_eq_of_single (List.range' 1 hs) shift _ ?_ ?_ ?_]
  · rw [filterMap_flatMap_eq]
    rw [flatMap_eq_of_single borderIter b _ ?_ ?_ ?_]
    · simp
    · intro bb hbb
      simp [hbb]
    · decide
    · cases b <;> decide
  · intro i hi
    rw [filterMap_flatMap_eq]
    apply List.flatMap_eq_nil_iff.mpr
    intro bb hbb
    simp [hi]
  · exact List.nodup_range' 1 hs
  · rw [List.mem_range'_1]
    omega

theorem constCenterEdges_filter_border (b : Border) (shift : Nat)
    (h1 : 1 ≤ shift) :
    (constCenterEdges.filterMap fun e : Edge =>
      if e.1 = CellIndex.Border b shift then some (e.2.1, e.2.2)
      else none) =
      (if shift = 1 then
        [((.Center : CellIndex), (.CentralMove : EdgeCost))] else []) := by
  unfold constCenterEdges
  rcases eq_or_ne shift 1 with rfl | hne
  · rw [if_pos rfl, filterMap_flatMap_eq]
    rw [flatMap_eq_of_single borderIter b _ ?_ ?_ ?_]
    · simp
    · intro bb hbb
      simp [hbb]
    · decide
    · cases b <;> decide
  · rw [if_neg hne]
    apply List.filterMap_eq_nil_iff.mpr
    intro e he
    simp only [List.mem_flatMap, List.mem_cons, List.mem_singleton,
      List.not_mem_nil, or_false] at he
    obtain ⟨bb, -, he⟩ := he
    rcases he with rfl | rfl
    · simp
    · simp [Ne.symm hne]

theorem constCampfireEdges_filter_border
    (cf : Homeland → Option CellIndex) (b : Border) (shift : Nat)
    (hcf : ∀ h c, cf h = some c →
      ∃ hh pp, c = CellIndex.Homeland hh pp) :
    ((constCampfireEdges cf).filterMap fun e : Edge =>
      if e.1 = CellIndex.Border b shift then some (e.2.1, e.2.2)
      else none) = [] := by
  apply List.filterMap_eq_nil_iff.mpr
  intro e he
  unfold constCampfireEdges at he
  simp only [List.mem_filterMap] at he
  obtain ⟨h, -, he⟩ := he
  rcases hcfh : cf h with _ | c
  · rw [hcfh] at he
    cases he
  · rw [hcfh] at he
    obtain ⟨hh, pp, rfl⟩ := hcf h c hcfh
    cases he
    simp

/-- C2 amended: in the graph built by `Graph::new` (campfires sitting on
homeland cells), a border vertex `Border{border, shift}` with
`1 ≤ shift ≤ homeland_size` has exactly these outgoing edges, in
construction order: two `StandardMove` edges into the two neighbouring
homelands’ adjacent interior cells (at the axis position determined by
the border’s direction), and a `CentralMove` to `Center` when
`shift = 1`.  There are no walking edges between border cells along the
border (no shift−1/shift+1 edges). -/
theorem C2_amended (hs : Nat) (cf : Homeland → Option CellIndex)
    (b : Border) (shift : Nat) (h1 : 1 ≤ shift) (h2 : shift ≤ hs)
    (hcf : ∀ h c, cf h = some c →
      ∃ hh pp, c = CellIndex.Homeland hh pp) :
    (Graph.newOf hs cf).outgoing (.Border b shift) =
      [(.Homeland b.neighbours.1 (adjacentPos b.direction shift),
         .StandardMove),
       (.Homeland b.neighbours.2 (adjacentPos b.direction shift),
         .StandardMove)]
      ++ (if shift = 1 then [(.Center, .CentralMove)] else []) := by
  show ((constEdgesOf hs cf ++ []).filterMap fun e : Edge =>
      if e.1 = CellIndex.Border b shift then some (e.2.1, e.2.2)
      else none) = _
  rw [List.append_nil]
  unfold constEdgesOf
  rw [List.filterMap_append, List.filterMap_append, List.filterMap_append]
  rw [constHomelandEdges_filter_border hs b shift,
    constBorderEdges_filter_border hs b shift h1 h2,
    constCenterEdges_filter_border b shift h1,
    constCampfireEdges_filter_border cf b shift hcf]
  simp

/-- Witness for C2 amended on a concrete border vertex. -/
theorem C2_amended_witness :
    (Graph.newOf 2 cfSmall).outgoing (.Border .RG 2) =
      [(.Homeland .Red ⟨1, 2⟩, .StandardMove),
       (.Homeland .Green ⟨1, 2⟩, .StandardMove)] := by
  have := C2_amended 2 cfSmall .RG 2 (by decide) (by decide)
    (by intro h c hc; cases h <;> simp [cfSmall] at hc <;>
        exact ⟨_, _, hc.symm⟩)
  simpa [Border.neighbours, Border.direction, adjacentPos] using this

/-! ### Comparator lawfulness lemmas (claim C3) -/

theorem then_eq_eq_iff (o1 o2 : Ordering) :
    o1.then o2 = .eq ↔ o1 = .eq ∧ o2 = .eq := by
  cases o1 <;> cases o2 <;> decide

theorem then_eq_lt_iff (o1 o2 : Ordering) :
    o1.then o2 = .lt ↔ o1 = .lt ∨ (o1 = .eq ∧ o2 = .lt) := by
  cases o1 <;> cases o2 <;> decide

theorem then_swap (o1 o2 : Ordering) :
    (o1.then o2).swap = o1.swap.then o2.swap := by
  cases o1 <;> cases o2 <;> decide

theorem then_eq_right (o : Ordering) : o.then .eq = o := by
  cases o <;> rfl

theorem eq_then_ord (o : Ordering) : Ordering.eq.then o = o := rfl

theorem compare_self_eq {β : Type u_1} [LinearOrder β] (x : β) :
    compare x x = .eq := compare_eq_iff_eq.mpr rfl

theorem swap_swap_ord (o : Ordering) : o.swap.swap = o := by
  cases o <;> rfl

theorem compare_swap_lin {β : Type u_1} [LinearOrder β] (x y : β) :
    (compare x y).swap = compare y x := by
  rcases lt_trichotomy x y with h | h | h
  · rw [compare_lt_iff_lt.mpr h, compare_gt_iff_gt.mpr h]
    rfl
  · rw [compare_eq_iff_eq.mpr h, compare_eq_iff_eq.mpr h.symm]
    rfl
  · rw [compare_gt_iff_gt.mpr h, compare_lt_iff_lt.mpr h]
    rfl

theorem cmpLawful_key {α : Type} {β : Type u_1} [LinearOrder β]
    (f : α → β) : CmpLawful fun a b => compare (f a) (f b) := by
  refine ⟨?_, ?_, ?_⟩
  · intro a b
    exact compare_swap_lin (f a) (f b)
  · intro a b c h1 h2
    rw [compare_lt_iff_lt] at h1 h2 ⊢
    exact lt_trans h1 h2
  · intro a b c h
    rw [compare_eq_iff_eq] at h
    show compare (f a) (f c) = compare (f b) (f c)
    rw [h]

theorem cmpLawful_eq_right {α : Type} {cmp : α → α → Ordering}
    (h : CmpLawful cmp) (a b c : α) (hbc : cmp b c = .eq) :
    cmp a b = cmp a c := by
  obtain ⟨hs, -, he⟩ := h
  have hcb : cmp c b = .eq := by
    rw [← hs b c, hbc]
    rfl
  have h1 : cmp b a = cmp c a := he b c a hbc
  rw [← swap_swap_ord (cmp a b), ← swap_swap_ord (cmp a c), hs a b, hs a c,
    h1]

theorem cmpLawful_then {α : Type} {c1 c2 : α → α → Ordering}
    (h1 : CmpLawful c1) (h2 : CmpLawful c2) :
    CmpLawful fun a b => (c1 a b).then (c2 a b) := by
  obtain ⟨h1s, h1t, h1e⟩ := h1
  obtain ⟨h2s, h2t, h2e⟩ := h2
  refine ⟨?_, ?_, ?_⟩
  · intro a b
    simp only [then_swap, h1s, h2s]
  · intro a b c hab hbc
    simp only [then_eq_lt_iff] at hab hbc ⊢
    rcases hab with hab | ⟨hab, hab2⟩ <;> rcases hbc with hbc | ⟨hbc, hbc2⟩
    · exact Or.inl (h1t a b c hab hbc)
    · exact Or.inl
        ((cmpLawful_eq_right ⟨h1s, h1t, h1e⟩ a b c hbc) ▸ hab)
    · exact Or.inl ((h1e a b c hab) ▸ hbc)
    · refine Or.inr ⟨(h1e a b c hab) ▸ hbc, h2t a b c hab2 hbc2⟩
  · intro a b c h
    rw [then_eq_eq_iff] at h
    obtain ⟨he1, he2⟩ := h
    simp only [h1e a b c he1, h2e a b c he2]

theorem homeland_ctorIdx_inj :
    ∀ a b : Homeland, a.toCtorIdx = b.toCtorIdx → a = b := by
  intro a b h
  cases a <;> cases b <;> first | rfl | exact absurd h (by decide)

theorem border_ctorIdx_inj :
    ∀ a b : Border, a.toCtorIdx = b.toCtorIdx → a = b := by
  intro a b h
  cases a <;> cases b <;> first | rfl | exact absurd h (by decide)

theorem pos_ext (p q : Pos) (hx : p.x = q.x) (hy : p.y = q.y) : p = q := by
  cases p
  cases q
  simp_all

theorem cellIndex_enc_inj (a b : CellIndex) (h : a.enc = b.enc) :
    a = b := by
  cases a with
  | Center =>
    cases b with
    | Center => rfl
    | Homeland h2 p2 => simp [CellIndex.enc, Prod.ext_iff] at h
    | Border b2 s2 => simp [CellIndex.enc, Prod.ext_iff] at h
  | Homeland h1 p1 =>
    cases b with
    | Center => simp [CellIndex.enc, Prod.ext_iff] at h
    | Homeland h2 p2 =>
      simp only [CellIndex.enc, Prod.ext_iff] at h
      rw [homeland_ctorIdx_inj _ _ h.2.1, pos_ext p1 p2 h.2.2.1 h.2.2.2]
    | Border b2 s2 => simp [CellIndex.enc, Prod.ext_iff] at h
  | Border b1 s1 =>
    cases b with
    | Center => simp [CellIndex.enc, Prod.ext_iff] at h
    | Homeland h2 p2 => simp [CellIndex.enc, Prod.ext_iff] at h
    | Border b2 s2 =>
      simp only [CellIndex.enc, Prod.ext_iff] at h
      rw [border_ctorIdx_inj _ _ h.2.1, h.2.2.1]

theorem aggregatedCost_enc_inj (a b : AggregatedCost)
    (h : a.enc = b.enc) : a = b := by
  cases a <;> cases b <;>
    simp only [AggregatedCost.enc, Prod.ext_iff] at h <;>
    first
      | rfl
      | omega
      | simp_all

theorem cellIndex_cmp_enc (a b : CellIndex) :
    a.cmp b =
      (compare a.enc.1 b.enc.1).then ((compare a.enc.2.1 b.enc.2.1).then
        ((compare a.enc.2.2.1 b.enc.2.2.1).then
          (compare a.enc.2.2.2 b.enc.2.2.2))) := by
  cases a <;> cases b <;>
    first
      | rfl
      | simp [CellIndex.cmp, CellIndex.enc, Homeland.cmp, Border.cmp,
          Pos.cmp, then_eq_right, eq_then_ord, compare_self_eq]

theorem aggregatedCost_cmp_enc (a b : AggregatedCost) :
    a.cmp b =
      (compare a.enc.1 b.enc.1).then ((compare a.enc.2.1 b.enc.2.1).then
        (compare a.enc.2.2 b.enc.2.2)) := by
  cases a <;> cases b <;>
    first
      | rfl
      | simp [AggregatedCost.cmp, AggregatedCost.enc, then_eq_right,
          eq_then_ord, compare_self_eq]

theorem cmpStrict_cellIndex : CmpStrict CellIndex.cmp := by
  constructor
  · have hrw : CellIndex.cmp = fun a b : CellIndex =>
        (compare a.enc.1 b.enc.1).then ((compare a.enc.2.1 b.enc.2.1).then
          ((compare a.enc.2.2.1 b.enc.2.2.1).then
            (compare a.enc.2.2.2 b.enc.2.2.2))) := by
      funext a b
      exact cellIndex_cmp_enc a b
    rw [hrw]
    exact cmpLawful_then (cmpLawful_key fun v : CellIndex => v.enc.1)
      (cmpLawful_then (cmpLawful_key fun v : CellIndex => v.enc.2.1)
        (cmpLawful_then (cmpLawful_key fun v : CellIndex => v.enc.2.2.1)
          (cmpLawful_key fun v : CellIndex => v.enc.2.2.2)))
  · intro a b
    constructor
    · intro h
      rw [cellIndex_cmp_enc, then_eq_eq_iff, then_eq_eq_iff,
        then_eq_eq_iff] at h
      obtain ⟨h1, h2, h3, h4⟩ := h
      rw [compare_eq_iff_eq] at h1 h2 h3 h4
      exact cellIndex_enc_inj a b (by
        rw [Prod.ext_iff, Prod.ext_iff, Prod.ext_iff]
        exact ⟨h1, h2, h3, h4⟩)
    · rintro rfl
      rw [cellIndex_cmp_enc]
      simp [then_eq_eq_iff, compare_eq_iff_eq]

theorem cmpStrict_aggregatedCost : CmpStrict AggregatedCost.cmp := by
  constructor
  · have hrw : AggregatedCost.cmp = fun a b : AggregatedCost =>
        (compare a.enc.1 b.enc.1).then ((compare a.enc.2.1 b.enc.2.1).then
          (compare a.enc.2.2 b.enc.2.2)) := by
      funext a b
      exact aggregatedCost_cmp_enc a b
    rw [hrw]
    exact cmpLawful_then (cmpLawful_key fun v : AggregatedCost => v.enc.1)
      (cmpLawful_then (cmpLawful_key fun v : AggregatedCost => v.enc.2.1)
        (cmpLawful_key fun v : AggregatedCost => v.enc.2.2))
  · intro a b
    constructor
    · intro h
      rw [aggregatedCost_cmp_enc, then_eq_eq_iff, then_eq_eq_iff] at h
      obtain ⟨h1, h2, h3⟩ := h
      rw [compare_eq_iff_eq] at h1 h2 h3
      exact aggregatedCost_enc_inj a b (by
        rw [Prod.ext_iff, Prod.ext_iff]
        exact ⟨h1, h2, h3⟩)
    · rintro rfl
      rw [aggregatedCost_cmp_enc]
      simp [then_eq_eq_iff, compare_eq_iff_eq]

theorem cmpLawful_comap {α β : Type} (f : α → β) {cmp : β → β → Ordering}
    (h : CmpLawful cmp) : CmpLawful fun a b => cmp (f a) (f b) :=
  ⟨fun a b => h.1 (f a) (f b), fun a b c => h.2.1 (f a) (f b) (f c),
    fun a b c he => h.2.2 (f a) (f b) (f c) he⟩

theorem cmpStrict_command : CmpStrict Command.cmp := by
  constructor
  · exact cmpLawful_then
      (cmpLawful_comap (fun c : Command => c.aggregatedCost)
        cmpStrict_aggregatedCost.1)
      (cmpLawful_then
        (cmpLawful_comap (fun c : Command => c.from_) cmpStrict_cellIndex.1)
        (cmpLawful_comap (fun c : Command => c.to_) cmpStrict_cellIndex.1))
  · intro a b
    constructor
    · intro h
      unfold Command.cmp at h
      rw [then_eq_eq_iff, then_eq_eq_iff] at h
      obtain ⟨h1, h2, h3⟩ := h
      rw [cmpStrict_aggregatedCost.2] at h1
      rw [cmpStrict_cellIndex.2] at h2 h3
      obtain ⟨a1, a2, a3⟩ := a
      obtain ⟨b1, b2, b3⟩ := b
      simp_all
    · rintro rfl
      unfold Command.cmp
      simp [then_eq_eq_iff, cmpStrict_aggregatedCost.2,
        cmpStrict_cellIndex.2]

theorem listCmp_swap :
    ∀ l1 l2 : List Command, (listCmp l1 l2).swap = listCmp l2 l1 := by
  intro l1
  induction l1 with
  | nil => intro l2; cases l2 <;> rfl
  | cons a t ih =>
    intro l2
    cases l2 with
    | nil => rfl
    | cons b t2 =>
      simp [listCmp, then_swap, ih, cmpStrict_command.1.1 a b]

theorem listCmp_eq_iff :
    ∀ l1 l2 : List Command, listCmp l1 l2 = .eq ↔ l1 = l2 := by
  intro l1
  induction l1 with
  | nil => intro l2; cases l2 <;> simp [listCmp]
  | cons a t ih =>
    intro l2
    cases l2 with
    | nil => simp [listCmp]
    | cons b t2 =>
      simp [listCmp, then_eq_eq_iff, cmpStrict_command.2, ih]

theorem listCmp_lt_trans :
    ∀ l1 l2 l3 : List Command, listCmp l1 l2 = .lt →
      listCmp l2 l3 = .lt → listCmp l1 l3 = .lt := by
  intro l1
  induction l1 with
  | nil =>
    intro l2 l3 h12 h23
    cases l2 with
    | nil => cases h12
    | cons b t2 =>
      cases l3 with
      | nil => cases h23
      | cons c t3 => rfl
  | cons a t ih =>
    intro l2 l3 h12 h23
    cases l2 with
    | nil => cases h12
    | cons b t2 =>
      cases l3 with
      | nil => cases h23
      | cons c t3 =>
        simp only [listCmp, then_eq_lt_iff] at h12 h23 ⊢
        rcases h12 with h12 | ⟨h12, h12t⟩ <;>
          rcases h23 with h23 | ⟨h23, h23t⟩
        · exact Or.inl (cmpStrict_command.1.2.1 a b c h12 h23)
        · rw [cmpStrict_command.2] at h23
          exact Or.inl (h23 ▸ h12)
        · rw [cmpStrict_command.2] at h12
          exact Or.inl (h12 ▸ h23)
        · rw [cmpStrict_command.2] at h12 h23
          subst h12
          subst h23
          exact Or.inr ⟨cmpStrict_command.2 a a |>.mpr rfl,
            ih t2 t3 h12t h23t⟩

theorem cmpLawful_listCmp : CmpLawful listCmp := by
  refine ⟨listCmp_swap, listCmp_lt_trans, ?_⟩
  intro a b c he
  rw [listCmp_eq_iff] at he
  rw [he]

theorem andThen_eq (p s : CostComparator) :
    p.andThen s = fun t1 t2 =>
      (((p.comparator t1 t2).then ((p.evalNext s).1.comparator t1 t2)).then
        ((p.evalNext s).2.comparator t1 t2)).then
        ((compare t1.commands.length t2.commands.length).then
          (listCmp t1.commands t2.commands)) := by
  funext t1 t2
  rfl

theorem costComparator_lawful (c : CostComparator) :
    CmpLawful c.comparator := by
  cases c
  · exact cmpLawful_key fun t : TotalCost => t.legs
  · exact cmpLawful_key fun t : TotalCost => t.time
  · exact cmpLawful_key fun t : TotalCost => t.money

theorem cmpLawful_andThen (p s : CostComparator) :
    CmpLawful (p.andThen s) := by
  rw [andThen_eq]
  exact cmpLawful_then
    (cmpLawful_then
      (cmpLawful_then (costComparator_lawful p)
        (costComparator_lawful (p.evalNext s).1))
      (costComparator_lawful (p.evalNext s).2))
    (cmpLawful_then (cmpLawful_key fun t : TotalCost => t.commands.length)
      (cmpLawful_comap (fun t : TotalCost => t.commands) cmpLawful_listCmp))

theorem evalNext_covers :
    ∀ p s m : CostComparator,
      m = p ∨ m = (p.evalNext s).1 ∨ m = (p.evalNext s).2 := by
  intro p s m
  cases p <;> cases s <;> cases m <;> decide

/-- C3: for every comparator pair, `and_then` produces a strict total
order on `TotalCost`: it is transitive, antisymmetric (`swap`), and
returns `Equal` exactly when `legs`, `money`, `time` and the whole
command sequence coincide; a duplicated secondary is promoted through
`probable_second_target`, the third key is the uniquely remaining
metric, and once all three metrics tie the order is decided by the
number of commands and then by the lexicographic comparison of the
command sequences. -/
theorem C3_comparator_total_order (p s : CostComparator) :
    (∀ a b c : TotalCost, p.andThen s a b = .lt → p.andThen s b c = .lt →
      p.andThen s a c = .lt) ∧
    (∀ a b : TotalCost, (p.andThen s a b).swap = p.andThen s b a) ∧
    (∀ a b : TotalCost, p.andThen s a b = .eq ↔
      (a.legs = b.legs ∧ a.money = b.money ∧ a.time = b.time ∧
        a.commands = b.commands)) ∧
    (p = s → (p.evalNext s).1 = p.probableSecondTarget) ∧
    (p ≠ s → (p.evalNext s).1 = s) ∧
    ((p.evalNext s).2 ≠ p ∧ (p.evalNext s).2 ≠ (p.evalNext s).1 ∧
      ∀ m : CostComparator,
        m = p ∨ m = (p.evalNext s).1 ∨ m = (p.evalNext s).2) ∧
    (∀ a b : TotalCost, a.legs = b.legs → a.money = b.money →
      a.time = b.time →
      p.andThen s a b = (compare a.commands.length b.commands.length).then
        (listCmp a.commands b.commands)) := by
  have hmetric_eq : ∀ (m : CostComparator) (a b : TotalCost),
      a.legs = b.legs → a.money = b.money → a.time = b.time →
      m.comparator a b = .eq := by
    intro m a b h1 h2 h3
    cases m <;>
      simp [CostComparator.comparator, compare_eq_iff_eq, h1, h2, h3]
  refine ⟨(cmpLawful_andThen p s).2.1, (cmpLawful_andThen p s).1, ?_, ?_,
    ?_, ?_, ?_⟩
  · intro a b
    rw [andThen_eq]
    simp only [then_eq_eq_iff, listCmp_eq_iff]
    constructor
    · rintro ⟨⟨⟨h1, h2⟩, h3⟩, -, h5⟩
      have hall : ∀ m : CostComparator, m.comparator a b = .eq := by
        intro m
        rcases evalNext_covers p s m with rfl | hm | hm
        · exact h1
        · rw [hm]; exact h2
        · rw [hm]; exact h3
      exact ⟨compare_eq_iff_eq.mp (hall .Legs),
        compare_eq_iff_eq.mp (hall .Money),
        compare_eq_iff_eq.mp (hall .Time), h5⟩
    · rintro ⟨h1, h2, h3, h4⟩
      refine ⟨⟨⟨hmetric_eq p a b h1 h2 h3,
        hmetric_eq (p.evalNext s).1 a b h1 h2 h3⟩,
        hmetric_eq (p.evalNext s).2 a b h1 h2 h3⟩, ?_, h4⟩
      rw [h4]
      exact compare_self_eq _
  · intro hps
    subst hps
    cases p <;> rfl
  · intro hps
    cases p <;> cases s <;> first | rfl | exact absurd rfl hps
  · refine ⟨?_, ?_, evalNext_covers p s⟩ <;> cases p <;> cases s <;> decide
  · intro a b h1 h2 h3
    rw [andThen_eq]
    show ((((p.comparator a b).then ((p.evalNext s).1.comparator a b)).then
        ((p.evalNext s).2.comparator a b)).then
        ((compare a.commands.length b.commands.length).then
          (listCmp a.commands b.commands))) = _
    rw [hmetric_eq p a b h1 h2 h3,
      hmetric_eq (p.evalNext s).1 a b h1 h2 h3,
      hmetric_eq (p.evalNext s).2 a b h1 h2 h3]
    rfl

/-- Witness for C3 at concrete comparators and concrete costs. -/
theorem C3_comparator_total_order_witness :
    (CostComparator.Legs.evalNext .Legs).1 =
      CostComparator.Legs.probableSecondTarget ∧
    (CostComparator.Legs.evalNext .Time).1 = .Time ∧
    CostComparator.Legs.andThen .Time
        { legs := 0, money := 0, time := 0, commands := [] }
        { legs := 0, money := 0, time := 0, commands := [] } =
      (compare (0 : Nat) 0).then (listCmp [] []) ∧
    CostComparator.Legs.andThen .Time
        { legs := 0, money := 0, time := 0, commands := [] }
        { legs := 2, money := 0, time := 0, commands := [] } = .lt := by
  refine ⟨(C3_comparator_total_order .Legs .Legs).2.2.2.1 rfl,
    (C3_comparator_total_order .Legs .Time).2.2.2.2.1 (by decide),
    (C3_comparator_total_order .Legs .Time).2.2.2.2.2.2
      { legs := 0, money := 0, time := 0, commands := [] }
      { legs := 0, money := 0, time := 0, commands := [] } rfl rfl rfl,
    (C3_comparator_total_order .Legs .Time).1
      { legs := 0, money := 0, time := 0, commands := [] }
      { legs := 1, money := 0, time := 0, commands := [] }
      { legs := 2, money := 0, time := 0, commands := [] }
      (by decide) (by decide)⟩

/-! ### Round-trip lemmas for the textual cell names (claim C7) -/

set_option maxRecDepth 10000 in
theorem parseU8_natToChars :
    ∀ n : Nat, n < 256 → parseU8 (natToChars n) = some n := by
  decide

set_option maxRecDepth 10000 in
theorem natToChars_all_digit :
    ∀ n : Nat, n < 256 → (natToChars n).all (fun c => c.isDigit) = true := by
  decide

theorem natToChars_not_mem (n : Nat) (hn : n < 256) (c : Char)
    (hc : c.isDigit = false) : c ∉ natToChars n := by
  intro hmem
  have h := List.all_eq_true.mp (natToChars_all_digit n hn) c hmem
  rw [hc] at h
  cases h

theorem splitOnce_append_sep (sep : Char) (A B : List Char)
    (hA : sep ∉ A) : splitOnce sep (A ++ sep :: B) = some (A, B) := by
  induction A with
  | nil => simp [splitOnce]
  | cons c A ih =>
    have hc : ¬(c = sep) := fun hh => hA (hh ▸ List.mem_cons_self c A)
    have hA2 : sep ∉ A := fun hh => hA (List.mem_cons_of_mem c hh)
    simp [splitOnce, hc, ih hA2]

theorem space_not_mem_posChars (x y : Nat) (hx : x < 256) (hy : y < 256) :
    ' ' ∉ Pos.chars ⟨x, y⟩ := by
  intro hmem
  unfold Pos.chars at hmem
  rcases List.mem_append.mp hmem with h | h
  · rcases List.mem_append.mp h with h | h
    · exact natToChars_not_mem x hx ' ' (by decide) h
    · simp at h
  · exact natToChars_not_mem y hy ' ' (by decide) h

theorem posFromChars_chars (x y : Nat) (hx : x < 256) (hy : y < 256) :
    posFromChars (Pos.chars ⟨x, y⟩) = some ⟨x, y⟩ := by
  have h1 : splitOnce '#' (natToChars x ++ '#' :: natToChars y) =
      some (natToChars x, natToChars y) :=
    splitOnce_append_sep '#' (natToChars x) (natToChars y)
      (natToChars_not_mem x hx '#' (by decide))
  have h2 : Pos.chars ⟨x, y⟩ = natToChars x ++ '#' :: natToChars y := by
    simp [Pos.chars]
  rw [posFromChars, h2, h1]
  simp [parseU8_natToChars x hx, parseU8_natToChars y hy]

theorem homelandFromChars_abbrev (h : Homeland) :
    homelandFromChars [h.asAbbrev] = some h := by
  cases h <;> rfl

theorem homelandFromChars_borderChars (b : Border) :
    homelandFromChars b.chars = none := by
  cases b <;> rfl

theorem borderFromChars_chars (b : Border) :
    borderFromChars b.chars = some b := by
  cases b <;> rfl

/-- C7: parsing the `Display`-formatted text of a canonical `CellIndex`
(`Center`; a homeland cell with both coordinates at least 1; a border
cell with a shift of at least 1 — all coordinates `u8`-bounded) yields
exactly that value back. -/
theorem C7_roundtrip :
    cellIndexFromChars (CellIndex.Center).chars = some .Center ∧
    (∀ (h : Homeland) (x y : Nat), 1 ≤ x → x ≤ 255 → 1 ≤ y → y ≤ 255 →
      cellIndexFromChars (CellIndex.Homeland h ⟨x, y⟩).chars =
        some (.Homeland h ⟨x, y⟩)) ∧
    (∀ (b : Border) (s : Nat), 1 ≤ s → s ≤ 255 →
      cellIndexFromChars (CellIndex.Border b s).chars =
        some (.Border b s)) := by
  refine ⟨rfl, ?_, ?_⟩
  · intro h x y hx1 hx2 hy1 hy2
    have hx : x < 256 := by omega
    have hy : y < 256 := by omega
    have hsplit : splitOnce ' '
        ([h.asAbbrev, ' '] ++ Pos.chars ⟨x, y⟩) =
        some ([h.asAbbrev], Pos.chars ⟨x, y⟩) := by
      have := splitOnce_append_sep ' ' [h.asAbbrev] (Pos.chars ⟨x, y⟩)
        (by cases h <;> simp [Homeland.asAbbrev])
      simpa using this
    have hne : ([h.asAbbrev, ' '] ++ Pos.chars ⟨x, y⟩) ≠
        ['0', '#', '0'] := by
      cases h <;> simp [Homeland.asAbbrev]
    show cellIndexFromChars ([h.asAbbrev, ' '] ++ Pos.chars ⟨x, y⟩) = _
    rw [cellIndexFromChars, if_neg hne, hsplit]
    show (parseAsHomeland [h.asAbbrev] (Pos.chars ⟨x, y⟩)).orElse _ = _
    rw [parseAsHomeland, homelandFromChars_abbrev h,
      posFromChars_chars x y hx hy]
    simp [build_homeland_pos h x y hx1 hy1]
  · intro b s hs1 hs2
    have hs : s < 256 := by omega
    have hsplit : splitOnce ' ' (b.chars ++ ' ' :: natToChars s) =
        some (b.chars, natToChars s) :=
      splitOnce_append_sep ' ' b.chars (natToChars s)
        (by cases b <;> simp [Border.chars])
    have hne : (b.chars ++ ' ' :: natToChars s) ≠ ['0', '#', '0'] := by
      cases b <;> simp [Border.chars]
    have hch : (CellIndex.Border b s).chars = b.chars ++ ' ' :: natToChars s := by
      simp [CellIndex.chars]
    rw [hch, cellIndexFromChars, if_neg hne, hsplit]
    show (parseAsHomeland b.chars (natToChars s)).orElse _ = _
    rw [parseAsHomeland, homelandFromChars_borderChars b]
    show parseAsBorder b.chars (natToChars s) = _
    rw [parseAsBorder, borderFromChars_chars b,
      parseU8_natToChars s hs]
    simp [build_border_pos b s hs1]

/-- Witness for C7 at concrete canonical cells. -/
theorem C7_roundtrip_witness :
    cellIndexFromChars (CellIndex.Homeland .Red ⟨3, 14⟩).chars =
      some (.Homeland .Red ⟨3, 14⟩) ∧
    cellIndexFromChars (CellIndex.Border .GY 255).chars =
      some (.Border .GY 255) := by
  exact ⟨C7_roundtrip.2.1 .Red 3 14 (by decide) (by decide) (by decide)
      (by decide),
    C7_roundtrip.2.2 .GY 255 (by decide) (by decide)⟩

/-! ### Invariant lemmas for the search loop (claims C10 and C1) -/

theorem distGet_insert_self (d : List (CellIndex × TotalCost))
    (k : CellIndex) (v : TotalCost) :
    distGet (distInsert d k v) k = some v := by
  simp [distGet, distInsert]

theorem distGet_insert_isSome (d : List (CellIndex × TotalCost))
    (k k' : CellIndex) (v : TotalCost)
    (h : (distGet d k').isSome = true) :
    (distGet (distInsert d k v) k').isSome = true := by
  by_cases hk : k = k'
  · subst hk; rw [distGet_insert_self]; rfl
  · have heq : distGet (distInsert d k v) k' = distGet d k' := by
      simp [distGet, distInsert, hk]
    rw [heq]; exact h

theorem foldl_min_mem (cmp : TotalCost → TotalCost → Ordering) :
    ∀ (xs : List TotalCost) (acc : TotalCost),
      xs.foldl (fun acc y => if cmp y acc = .lt then y else acc) acc
          = acc ∨
        xs.foldl (fun acc y => if cmp y acc = .lt then y else acc) acc
          ∈ xs := by
  intro xs
  induction xs with
  | nil => intro acc; exact Or.inl rfl
  | cons y ys ih =>
    intro acc
    rw [List.foldl_cons]
    rcases ih (if cmp y acc = .lt then y else acc) with h | h
    · rw [h]
      by_cases hy : cmp y acc = .lt
      · rw [if_pos hy]; exact Or.inr (List.mem_cons_self y ys)
      · rw [if_neg hy]; exact Or.inl rfl
    · exact Or.inr (List.mem_cons_of_mem y h)

theorem heapPop_mem (cmp : TotalCost → TotalCost → Ordering)
    (heap : List TotalCost) (m : TotalCost) (rest : List TotalCost)
    (h : heapPop cmp heap = some (m, rest)) :
    m ∈ heap ∧ ∀ x ∈ rest, x ∈ heap := by
  cases heap with
  | nil => simp [heapPop] at h
  | cons x xs =>
    simp only [heapPop, Option.some.injEq, Prod.mk.injEq] at h
    obtain ⟨hm, hr⟩ := h
    constructor
    · rcases foldl_min_mem cmp xs x with h2 | h2
      · rw [← hm, h2]; exact List.mem_cons_self x xs
      · rw [← hm]; exact List.mem_cons_of_mem x h2
    · intro z hz
      rw [← hr] at hz
      exact List.mem_of_mem_erase hz

theorem walkEndsAt_nil (v : CellIndex) : walkEndsAt v [] = v := rfl

theorem walkEndsAt_cons (v t : CellIndex) (c : EdgeCost)
    (ss : List (CellIndex × EdgeCost)) :
    walkEndsAt v ((t, c) :: ss) = walkEndsAt t ss := by
  cases ss with
  | nil => rfl
  | cons s ss =>
    obtain ⟨a, ha⟩ := Option.isSome_iff_exists.mp
      (List.getLast?_isSome.mpr (List.cons_ne_nil s ss))
    simp only [walkEndsAt, List.getLast?_cons_cons, ha]
    rfl

theorem walkEndsAt_append_single (v : CellIndex)
    (ss : List (CellIndex × EdgeCost)) (t : CellIndex) (c : EdgeCost) :
    walkEndsAt v (ss ++ [(t, c)]) = t := by
  simp [walkEndsAt]

theorem walkCost_append_single (g : Graph) (soe : Nat) :
    ∀ (steps : List (CellIndex × EdgeCost)) (v : CellIndex)
      (acc r : TotalCost) (t : CellIndex) (c : EdgeCost),
      walkCost g soe v steps acc = some r →
      g.isEdge (walkEndsAt v steps) t c = true →
      walkCost g soe v (steps ++ [(t, c)]) acc =
        some (r.addAssign (c, soe, walkEndsAt v steps, t)) := by
  intro steps
  induction steps with
  | nil =>
    intro v acc r t c hw he
    simp only [walkCost, Option.some.injEq] at hw
    subst hw
    rw [walkEndsAt_nil] at he ⊢
    simp [walkCost, he]
  | cons s ss ih =>
    intro v acc r t c hw he
    obtain ⟨st, sc⟩ := s
    rw [walkEndsAt_cons] at he ⊢
    simp only [List.cons_append, walkCost] at hw ⊢
    by_cases hedge : g.isEdge v st sc = true
    · rw [if_pos hedge] at hw ⊢
      exact ih st _ r t c hw he
    · rw [if_neg hedge] at hw
      cases hw

theorem isEdge_of_outgoing (g : Graph) (v : CellIndex)
    (e : CellIndex × EdgeCost) (h : e ∈ g.outgoing v) :
    g.isEdge v e.1 e.2 = true := by
  unfold Graph.outgoing at h
  rw [List.mem_filterMap] at h
  obtain ⟨ed, hmem, hed⟩ := h
  by_cases hv : ed.1 = v
  · rw [if_pos hv] at hed
    have he : e = (ed.2.1, ed.2.2) := by
      cases hed; rfl
    subst he
    rw [← hv]
    have hmem2 : (ed.1, ed.2.1, ed.2.2) ∈ g.constEdges ++ g.dynEdges := by
      simpa using hmem
    simpa [Graph.isEdge] using hmem2
  · rw [if_neg hv] at hed
    cases hed

theorem relaxStep_inv (g : Graph) (soe : Nat) (from_ : CellIndex)
    (cmp : TotalCost → TotalCost → Ordering) (cost : TotalCost)
    (lci : CellIndex) (csteps : List (CellIndex × EdgeCost))
    (hcw : walkCost g soe from_ csteps (TotalCost.new from_) = some cost)
    (hce : walkEndsAt from_ csteps = lci)
    (st : List (CellIndex × TotalCost) × List TotalCost)
    (e : CellIndex × EdgeCost) (he : g.isEdge lci e.1 e.2 = true)
    (h : LoopInv g soe from_ st.1 st.2) :
    LoopInv g soe from_ (relaxStep soe cmp cost lci st e).1
      (relaxStep soe cmp cost lci st e).2 := by
  obtain ⟨dist, heap⟩ := st
  have hins : LoopInv g soe from_
      (distInsert dist e.1 (cost.addAssign (e.2, soe, lci, e.1)))
      (cost.addAssign (e.2, soe, lci, e.1) :: heap) := by
    intro c hc
    rcases List.mem_cons.mp hc with rfl | hc
    · obtain ⟨cmd, hl, hto⟩ :=
        TotalCost.addAssign_getLast_to cost e.2 soe lci e.1
      refine ⟨cmd, csteps ++ [(e.1, e.2)], hl, ?_, ?_, ?_⟩
      · rw [hto, distGet_insert_self]; rfl
      · have hw := walkCost_append_single g soe csteps from_
          (TotalCost.new from_) cost e.1 e.2 hcw (by rw [hce]; exact he)
        rw [hw, hce]
      · rw [hto, walkEndsAt_append_single]
    · obtain ⟨cmd, steps, hl, hs, hw, hend⟩ := h c hc
      exact ⟨cmd, steps, hl,
        distGet_insert_isSome dist e.1 cmd.to_ _ hs, hw, hend⟩
  unfold relaxStep
  cases hdg : distGet dist e.1 with
  | none => simpa [hdg] using hins
  | some old =>
    by_cases hlt : cmp (cost.addAssign (e.2, soe, lci, e.1)) old = .lt
    · simpa [hdg, hlt] using hins
    · simpa [hdg, hlt] using h

theorem relaxFold_inv (g : Graph) (soe : Nat) (from_ : CellIndex)
    (cmp : TotalCost → TotalCost → Ordering) (cost : TotalCost)
    (lci : CellIndex) (csteps : List (CellIndex × EdgeCost))
    (hcw : walkCost g soe from_ csteps (TotalCost.new from_) = some cost)
    (hce : walkEndsAt from_ csteps = lci) :
    ∀ (es : List (CellIndex × EdgeCost)),
      (∀ e ∈ es, g.isEdge lci e.1 e.2 = true) →
      ∀ (st : List (CellIndex × TotalCost) × List TotalCost),
        LoopInv g soe from_ st.1 st.2 →
        LoopInv g soe from_
          (es.foldl (relaxStep soe cmp cost lci) st).1
          (es.foldl (relaxStep soe cmp cost lci) st).2 := by
  intro es
  induction es with
  | nil => intro _ st h; exact h
  | cons e es ih =>
    intro hes st h
    rw [List.foldl_cons]
    exact ih (fun x hx => hes x (List.mem_cons_of_mem e hx))
      (relaxStep soe cmp cost lci st e)
      (relaxStep_inv g soe from_ cmp cost lci csteps hcw hce st e
        (hes e (List.mem_cons_self e es)) h)

theorem relaxEdges_inv (g : Graph) (soe : Nat) (from_ : CellIndex)
    (cmp : TotalCost → TotalCost → Ordering) (cost : TotalCost)
    (lci : CellIndex) (csteps : List (CellIndex × EdgeCost))
    (hcw : walkCost g soe from_ csteps (TotalCost.new from_) = some cost)
    (hce : walkEndsAt from_ csteps = lci)
    (st : List (CellIndex × TotalCost) × List TotalCost)
    (h : LoopInv g soe from_ st.1 st.2) :
    LoopInv g soe from_ (relaxEdges g soe cmp cost lci st).1
      (relaxEdges g soe cmp cost lci st).2 :=
  relaxFold_inv g soe from_ cmp cost lci csteps hcw hce
    (g.outgoing lci) (fun e he => isEdge_of_outgoing g lci e he) st h

theorem findPathLoop_inv (g : Graph) (soe : Nat) (to_ : CellIndex)
    (cmp : TotalCost → TotalCost → Ordering) (from_ : CellIndex) :
    ∀ (fuel : Nat) (dist : List (CellIndex × TotalCost))
      (heap : List TotalCost), LoopInv g soe from_ dist heap →
      findPathLoop g soe to_ cmp fuel dist heap ≠ .panicked ∧
      ∀ c, findPathLoop g soe to_ cmp fuel dist heap = .found c →
        ∃ steps,
          walkCost g soe from_ steps (TotalCost.new from_) = some c ∧
          walkEndsAt from_ steps = to_ := by
  intro fuel
  induction fuel with
  | zero =>
    intro dist heap _
    refine ⟨by simp [findPathLoop], ?_⟩
    intro c hc
    simp [findPathLoop] at hc
  | succ n ih =>
    intro dist heap hinv
    rcases hpop : heapPop cmp heap with _ | ⟨cost, heapRest⟩
    · refine ⟨by simp [findPathLoop, hpop], ?_⟩
      intro c hc
      simp [findPathLoop, hpop] at hc
    · obtain ⟨hcm, hrm⟩ := heapPop_mem cmp heap cost heapRest hpop
      obtain ⟨cmd, steps, hlast, hsome, hwalk, hend⟩ := hinv cost hcm
      have hinvRest : LoopInv g soe from_ dist heapRest :=
        fun c hc => hinv c (hrm c hc)
      by_cases hto : cmd.to_ = to_
      · refine ⟨by simp [findPathLoop, hpop, hlast, hto], ?_⟩
        intro c hc
        simp only [findPathLoop, hpop, hlast, hto, if_pos] at hc
        obtain rfl : cost = c := by
          cases hc
          rfl
        exact ⟨steps, hwalk, hend.trans hto⟩
      · obtain ⟨best, hbest⟩ := Option.isSome_iff_exists.mp hsome
        by_cases hgt : cmp cost best = .gt
        · have hred : findPathLoop g soe to_ cmp (n + 1) dist heap =
              findPathLoop g soe to_ cmp n dist heapRest := by
            simp [findPathLoop, hpop, hlast, hto, hbest, hgt]
          rw [hred]
          exact ih dist heapRest hinvRest
        · have hred : findPathLoop g soe to_ cmp (n + 1) dist heap =
              findPathLoop g soe to_ cmp n
                (relaxEdges g soe cmp cost cmd.to_ (dist, heapRest)).1
                (relaxEdges g soe cmp cost cmd.to_ (dist, heapRest)).2 := by
            simp [findPathLoop, hpop, hlast, hto, hbest, hgt]
          rw [hred]
          exact ih _ _ (relaxEdges_inv g soe from_ cmp cost cmd.to_
            steps hwalk hend (dist, heapRest) hinvRest)

theorem loopInv_init (g : Graph) (soe : Nat) (from_ : CellIndex) :
    LoopInv g soe from_ [(from_, TotalCost.new from_)]
      [TotalCost.new from_] := by
  intro c hc
  obtain rfl : c = TotalCost.new from_ := List.mem_singleton.mp hc
  refine ⟨⟨.NoMove, from_, from_⟩, [], rfl, ?_, rfl, rfl⟩
  simp [distGet]

/-- C10: the two potential panic sites inside the search loop of
`Graph::find_path` — the `unwrap` on `cost.commands.last()` and the
indexing `dist[&lowest_cost_index]` — are unreachable: the search never
reaches the `panicked` outcome, for any graph, costs, endpoints,
comparator pair and fuel (in particular whenever `from != to`). -/
theorem C10_no_panic (g : Graph) (soe : Nat) (from_ to_ : CellIndex)
    (c1 c2 : CostComparator) (fuel : Nat) :
    g.findPath soe from_ to_ c1 c2 fuel ≠ .panicked := by
  unfold Graph.findPath
  by_cases h : from_ = to_
  · simp [h]
  · rw [if_neg h]
    exact (findPathLoop_inv g soe to_ (c1.andThen c2) from_ fuel
      [(from_, TotalCost.new from_)] [TotalCost.new from_]
      (loopInv_init g soe from_)).1

/-! ### Completeness of the exhausted outcome (claim C1)

When the loop runs out of heap entries, the `dist` map is closed under
the outgoing edges of the graph and does not contain the target, so no
edge walk from the source can end at the target. -/

theorem distGet_insert_ne (d : List (CellIndex × TotalCost))
    (k : CellIndex) (v : TotalCost) (k' : CellIndex) (h : ¬ k = k') :
    distGet (distInsert d k v) k' = distGet d k' := by
  simp [distGet, distInsert, h]

theorem outgoing_of_isEdge (g : Graph) (v w : CellIndex) (c : EdgeCost)
    (h : g.isEdge v w c = true) : (w, c) ∈ g.outgoing v := by
  have hmem : (v, w, c) ∈ g.constEdges ++ g.dynEdges := by
    simpa [Graph.isEdge] using h
  unfold Graph.outgoing
  rw [List.mem_filterMap]
  exact ⟨(v, w, c), hmem, by simp⟩

theorem walkOk_of_walkCost (g : Graph) (soe : Nat) :
    ∀ (steps : List (CellIndex × EdgeCost)) (v : CellIndex)
      (acc r : TotalCost),
      walkCost g soe v steps acc = some r → walkOk g v steps = true := by
  intro steps
  induction steps with
  | nil => intro v acc r _; rfl
  | cons s rest ih =>
    intro v acc r hw
    obtain ⟨t, c⟩ := s
    simp only [walkCost] at hw
    by_cases hedge : g.isEdge v t c = true
    · rw [if_pos hedge] at hw
      simp only [walkOk, Bool.and_eq_true]
      exact ⟨hedge, ih t _ r hw⟩
    · rw [if_neg hedge] at hw
      cases hw

theorem comparator_self (c : CostComparator) (t : TotalCost) :
    c.comparator t t = .eq := by
  cases c <;> simp [CostComparator.comparator, compare_self_eq]

theorem andThen_self (p s : CostComparator) (t : TotalCost) :
    (p.andThen s) t t = .eq := by
  rw [andThen_eq]
  have hl : listCmp t.commands t.commands = .eq :=
    (listCmp_eq_iff _ _).mpr rfl
  simp [comparator_self, compare_self_eq, hl, Ordering.then]

theorem heapPop_mem_rest (cmp : TotalCost → TotalCost → Ordering)
    (heap : List TotalCost) (m : TotalCost) (rest : List TotalCost)
    (h : heapPop cmp heap = some (m, rest)) :
    ∀ x ∈ heap, x ≠ m → x ∈ rest := by
  cases heap with
  | nil => simp [heapPop] at h
  | cons a as =>
    simp only [heapPop, Option.some.injEq, Prod.mk.injEq] at h
    obtain ⟨hm, hr⟩ := h
    intro x hx hne
    rw [← hr, hm]
    exact (List.mem_erase_of_ne hne).mpr hx

theorem relaxStep_dist_mono (soe : Nat)
    (cmp : TotalCost → TotalCost → Ordering) (cost : TotalCost)
    (lci : CellIndex)
    (st : List (CellIndex × TotalCost) × List TotalCost)
    (e : CellIndex × EdgeCost) (k : CellIndex)
    (h : (distGet st.1 k).isSome = true) :
    (distGet (relaxStep soe cmp cost lci st e).1 k).isSome = true := by
  obtain ⟨dist, heap⟩ := st
  have hins : (distGet (distInsert dist e.1
      (cost.addAssign (e.2, soe, lci, e.1))) k).isSome = true :=
    distGet_insert_isSome dist e.1 k
      (cost.addAssign (e.2, soe, lci, e.1)) h
  unfold relaxStep
  cases hdg : distGet dist e.1 with
  | none => simpa [hdg] using hins
  | some old =>
    by_cases hlt : cmp (cost.addAssign (e.2, soe, lci, e.1)) old = .lt
    · simpa [hdg, hlt] using hins
    · simpa [hdg, hlt] using h

theorem relaxFold_dist_mono (soe : Nat)
    (cmp : TotalCost → TotalCost → Ordering) (cost : TotalCost)
    (lci : CellIndex) :
    ∀ (es : List (CellIndex × EdgeCost))
      (st : List (CellIndex × TotalCost) × List TotalCost)
      (k : CellIndex), (distGet st.1 k).isSome = true →
      (distGet ((es.foldl (relaxStep soe cmp cost lci) st)).1 k).isSome
        = true := by
  intro es
  induction es with
  | nil => intro st k h; exact h
  | cons e es ih =>
    intro st k h
    rw [List.foldl_cons]
    exact ih (relaxStep soe cmp cost lci st e) k
      (relaxStep_dist_mono soe cmp cost lci st e k h)

theorem relaxStep_target_isSome (soe : Nat)
    (cmp : TotalCost → TotalCost → Ordering) (cost : TotalCost)
    (lci : CellIndex)
    (st : List (CellIndex × TotalCost) × List TotalCost)
    (e : CellIndex × EdgeCost) :
    (distGet (relaxStep soe cmp cost lci st e).1 e.1).isSome = true := by
  obtain ⟨dist, heap⟩ := st
  have hins : (distGet (distInsert dist e.1
      (cost.addAssign (e.2, soe, lci, e.1))) e.1).isSome = true := by
    rw [distGet_insert_self]; rfl
  unfold relaxStep
  cases hdg : distGet dist e.1 with
  | none => simpa [hdg] using hins
  | some old =>
    by_cases hlt : cmp (cost.addAssign (e.2, soe, lci, e.1)) old = .lt
    · simpa [hdg, hlt] using hins
    · simp [hdg, hlt]

theorem relaxFold_done (soe : Nat)
    (cmp : TotalCost → TotalCost → Ordering) (cost : TotalCost)
    (lci : CellIndex) :
    ∀ (es : List (CellIndex × EdgeCost))
      (st : List (CellIndex × TotalCost) × List TotalCost),
      ∀ e ∈ es,
        (distGet ((es.foldl (relaxStep soe cmp cost lci) st)).1
          e.1).isSome = true := by
  intro es
  induction es with
  | nil => intro st e he; cases he
  | cons a es ih =>
    intro st e he
    rw [List.foldl_cons]
    rcases List.mem_cons.mp he with rfl | he2
    · exact relaxFold_dist_mono soe cmp cost lci es
        (relaxStep soe cmp cost lci st e) e.1
        (relaxStep_target_isSome soe cmp cost lci st e)
    · exact ih (relaxStep soe cmp cost lci st a) e he2

theorem relaxStep_searchInvL (g : Graph) (soe : Nat)
    (cmp : TotalCost → TotalCost → Ordering)
    (hrefl : ∀ x, cmp x x = Ordering.eq) (cost : TotalCost)
    (lci : CellIndex)
    (st : List (CellIndex × TotalCost) × List TotalCost)
    (e : CellIndex × EdgeCost)
    (h : SearchInvL g cmp lci st.1 st.2) :
    SearchInvL g cmp lci (relaxStep soe cmp cost lci st e).1
      (relaxStep soe cmp cost lci st e).2 := by
  obtain ⟨dist, heap⟩ := st
  have hins : SearchInvL g cmp lci
      (distInsert dist e.1 (cost.addAssign (e.2, soe, lci, e.1)))
      (cost.addAssign (e.2, soe, lci, e.1) :: heap) := by
    intro v dv hv
    by_cases hvk : e.1 = v
    · subst hvk
      rw [distGet_insert_self] at hv
      injection hv with hv
      subst hv
      right; right
      obtain ⟨cmd, hl, hto⟩ :=
        TotalCost.addAssign_getLast_to cost e.2 soe lci e.1
      exact ⟨cost.addAssign (e.2, soe, lci, e.1),
        List.mem_cons_self _ _, cmd, hl, hto,
        by intro hgt; rw [hrefl] at hgt; cases hgt⟩
    · rw [distGet_insert_ne dist e.1
        (cost.addAssign (e.2, soe, lci, e.1)) v hvk] at hv
      rcases h v dv hv with hl | hdone | ⟨c, hc, cmd, h1, h2, h3⟩
      · exact Or.inl hl
      · refine Or.inr (Or.inl ?_)
        intro e' he'
        exact distGet_insert_isSome dist e.1 e'.1
          (cost.addAssign (e.2, soe, lci, e.1)) (hdone e' he')
      · exact Or.inr (Or.inr
          ⟨c, List.mem_cons_of_mem _ hc, cmd, h1, h2, h3⟩)
  unfold relaxStep
  cases hdg : distGet dist e.1 with
  | none => simpa [hdg] using hins
  | some old =>
    by_cases hlt : cmp (cost.addAssign (e.2, soe, lci, e.1)) old = .lt
    · simpa [hdg, hlt] using hins
    · simpa [hdg, hlt] using h

theorem relaxFold_searchInvL (g : Graph) (soe : Nat)
    (cmp : TotalCost → TotalCost → Ordering)
    (hrefl : ∀ x, cmp x x = Ordering.eq) (cost : TotalCost)
    (lci : CellIndex) :
    ∀ (es : List (CellIndex × EdgeCost))
      (st : List (CellIndex × TotalCost) × List TotalCost),
      SearchInvL g cmp lci st.1 st.2 →
      SearchInvL g cmp lci
        ((es.foldl (relaxStep soe cmp cost lci) st)).1
        ((es.foldl (relaxStep soe cmp cost lci) st)).2 := by
  intro es
  induction es with
  | nil => intro st h; exact h
  | cons e es ih =>
    intro st h
    rw [List.foldl_cons]
    exact ih (relaxStep soe cmp cost lci st e)
      (relaxStep_searchInvL g soe cmp hrefl cost lci st e h)

theorem relaxStep_targetInv (soe : Nat)
    (cmp : TotalCost → TotalCost → Ordering) (cost : TotalCost)
    (lci to_ : CellIndex)
    (st : List (CellIndex × TotalCost) × List TotalCost)
    (e : CellIndex × EdgeCost)
    (h : TargetInv to_ st.1 st.2) :
    TargetInv to_ (relaxStep soe cmp cost lci st e).1
      (relaxStep soe cmp cost lci st e).2 := by
  obtain ⟨dist, heap⟩ := st
  have hins : TargetInv to_
      (distInsert dist e.1 (cost.addAssign (e.2, soe, lci, e.1)))
      (cost.addAssign (e.2, soe, lci, e.1) :: heap) := by
    intro hsome
    by_cases hvk : e.1 = to_
    · obtain ⟨cmd, hl, hto⟩ :=
        TotalCost.addAssign_getLast_to cost e.2 soe lci e.1
      exact ⟨cost.addAssign (e.2, soe, lci, e.1),
        List.mem_cons_self _ _, cmd, hl, hto.trans hvk⟩
    · rw [distGet_insert_ne dist e.1
        (cost.addAssign (e.2, soe, lci, e.1)) to_ hvk] at hsome
      obtain ⟨c, hc, cmd, h1, h2⟩ := h hsome
      exact ⟨c, List.mem_cons_of_mem _ hc, cmd, h1, h2⟩
  unfold relaxStep
  cases hdg : distGet dist e.1 with
  | none => simpa [hdg] using hins
  | some old =>
    by_cases hlt : cmp (cost.addAssign (e.2, soe, lci, e.1)) old = .lt
    · simpa [hdg, hlt] using hins
    · simpa [hdg, hlt] using h

theorem relaxFold_targetInv (soe : Nat)
    (cmp : TotalCost → TotalCost → Ordering) (cost : TotalCost)
    (lci to_ : CellIndex) :
    ∀ (es : List (CellIndex × EdgeCost))
      (st : List (CellIndex × TotalCost) × List TotalCost),
      TargetInv to_ st.1 st.2 →
      TargetInv to_ ((es.foldl (relaxStep soe cmp cost lci) st)).1
        ((es.foldl (relaxStep soe cmp cost lci) st)).2 := by
  intro es
  induction es with
  | nil => intro st h; exact h
  | cons e es ih =>
    intro st h
    rw [List.foldl_cons]
    exact ih (relaxStep soe cmp cost lci st e)
      (relaxStep_targetInv soe cmp cost lci to_ st e h)

theorem walk_stays_in_dist (g : Graph)
    (dist : List (CellIndex × TotalCost))
    (hclosed : ∀ u, (distGet dist u).isSome = true →
      VertexDone g dist u) :
    ∀ (steps : List (CellIndex × EdgeCost)) (v : CellIndex),
      (distGet dist v).isSome = true → walkOk g v steps = true →
      (distGet dist (walkEndsAt v steps)).isSome = true := by
  intro steps
  induction steps with
  | nil =>
    intro v hv _
    rw [walkEndsAt_nil]
    exact hv
  | cons s rest ih =>
    intro v hv hw
    obtain ⟨t, c⟩ := s
    rw [walkEndsAt_cons]
    simp only [walkOk, Bool.and_eq_true] at hw
    exact ih t (hclosed v hv (t, c) (outgoing_of_isEdge g v t c hw.1))
      hw.2

theorem findPathLoop_exhausted_no_walk (g : Graph) (soe : Nat)
    (to_ : CellIndex) (cmp : TotalCost → TotalCost → Ordering)
    (hrefl : ∀ x, cmp x x = Ordering.eq) :
    ∀ (fuel : Nat) (dist : List (CellIndex × TotalCost))
      (heap : List TotalCost),
      SearchInv g cmp dist heap → TargetInv to_ dist heap →
      findPathLoop g soe to_ cmp fuel dist heap = .exhausted →
      ∀ v, (distGet dist v).isSome = true →
        ∀ steps, walkOk g v steps = true → walkEndsAt v steps ≠ to_ := by
  intro fuel
  induction fuel with
  | zero =>
    intro dist heap _ _ hex
    simp [findPathLoop] at hex
  | succ n ih =>
    intro dist heap hS hT hex v hv steps hw
    rcases hpop : heapPop cmp heap with _ | ⟨cost, heapRest⟩
    · have hheap : heap = [] := by
        cases heap with
        | nil => rfl
        | cons a as => simp [heapPop] at hpop
      subst hheap
      have hclosed : ∀ u, (distGet dist u).isSome = true →
          VertexDone g dist u := by
        intro u hu
        obtain ⟨du, hdu⟩ := Option.isSome_iff_exists.mp hu
        rcases hS u du hdu with h | ⟨c, hc, _⟩
        · exact h
        · cases hc
      have hto : ¬ (distGet dist to_).isSome = true := by
        intro hsome
        obtain ⟨c, hc, _⟩ := hT hsome
        cases hc
      intro heq
      exact hto (heq ▸ walk_stays_in_dist g dist hclosed steps v hv hw)
    · rcases hlast : cost.commands.getLast? with _ | cmd
      · have hred : findPathLoop g soe to_ cmp (n + 1) dist heap =
            .panicked := by
          simp [findPathLoop, hpop, hlast]
        rw [hred] at hex
        cases hex
      · by_cases hto2 : cmd.to_ = to_
        · have hred : findPathLoop g soe to_ cmp (n + 1) dist heap =
              .found cost := by
            simp [findPathLoop, hpop, hlast, hto2]
          rw [hred] at hex
          cases hex
        · rcases hbest : distGet dist cmd.to_ with _ | best
          · have hred : findPathLoop g soe to_ cmp (n + 1) dist heap =
                .panicked := by
              simp [findPathLoop, hpop, hlast, hto2, hbest]
            rw [hred] at hex
            cases hex
          · by_cases hgt : cmp cost best = .gt
            · have hred : findPathLoop g soe to_ cmp (n + 1) dist heap =
                  findPathLoop g soe to_ cmp n dist heapRest := by
                simp [findPathLoop, hpop, hlast, hto2, hbest, hgt]
              rw [hred] at hex
              have hS2 : SearchInv g cmp dist heapRest := by
                intro u du hdu
                rcases hS u du hdu with hdone | ⟨c, hc, cmd', h1, h2, h3⟩
                · exact Or.inl hdone
                · right
                  have hne : c ≠ cost := by
                    rintro rfl
                    rw [hlast] at h1
                    injection h1 with h1
                    subst h1
                    rw [← h2] at hdu
                    rw [hbest] at hdu
                    injection hdu with hdu
                    subst hdu
                    exact h3 hgt
                  exact ⟨c, heapPop_mem_rest cmp heap cost heapRest hpop
                    c hc hne, cmd', h1, h2, h3⟩
              have hT2 : TargetInv to_ dist heapRest := by
                intro hsome
                obtain ⟨c, hc, cmd', h1, h2⟩ := hT hsome
                have hne : c ≠ cost := by
                  rintro rfl
                  rw [hlast] at h1
                  injection h1 with h1
                  subst h1
                  exact hto2 h2
                exact ⟨c, heapPop_mem_rest cmp heap cost heapRest hpop
                  c hc hne, cmd', h1, h2⟩
              exact ih dist heapRest hS2 hT2 hex v hv steps hw
            · have hred : findPathLoop g soe to_ cmp (n + 1) dist heap =
                  findPathLoop g soe to_ cmp n
                    (relaxEdges g soe cmp cost cmd.to_
                      (dist, heapRest)).1
                    (relaxEdges g soe cmp cost cmd.to_
                      (dist, heapRest)).2 := by
                simp [findPathLoop, hpop, hlast, hto2, hbest, hgt]
              rw [hred] at hex
              have hSL : SearchInvL g cmp cmd.to_ dist heapRest := by
                intro u du hdu
                rcases hS u du hdu with hdone | ⟨c, hc, cmd', h1, h2, h3⟩
                · exact Or.inr (Or.inl hdone)
                · by_cases hu : u = cmd.to_
                  · exact Or.inl hu
                  · right; right
                    have hne : c ≠ cost := by
                      rintro rfl
                      rw [hlast] at h1
                      injection h1 with h1
                      subst h1
                      exact hu h2.symm
                    exact ⟨c, heapPop_mem_rest cmp heap cost heapRest
                      hpop c hc hne, cmd', h1, h2, h3⟩
              have hT2 : TargetInv to_ dist heapRest := by
                intro hsome
                obtain ⟨c, hc, cmd', h1, h2⟩ := hT hsome
                have hne : c ≠ cost := by
                  rintro rfl
                  rw [hlast] at h1
                  injection h1 with h1
                  subst h1
                  exact hto2 h2
                exact ⟨c, heapPop_mem_rest cmp heap cost heapRest hpop
                  c hc hne, cmd', h1, h2⟩
              have hSL2 := relaxFold_searchInvL g soe cmp hrefl cost
                cmd.to_ (g.outgoing cmd.to_) (dist, heapRest) hSL
              have hT3 := relaxFold_targetInv soe cmp cost cmd.to_ to_
                (g.outgoing cmd.to_) (dist, heapRest) hT2
              have hS3 : SearchInv g cmp
                  (relaxEdges g soe cmp cost cmd.to_ (dist, heapRest)).1
                  (relaxEdges g soe cmp cost cmd.to_
                    (dist, heapRest)).2 := by
                intro u du hdu
                rcases hSL2 u du hdu with hu | hdone | hwit
                · subst hu
                  left
                  intro e' he'
                  exact relaxFold_done soe cmp cost cmd.to_
                    (g.outgoing cmd.to_) (dist, heapRest) e' he'
                · exact Or.inl hdone
                · exact Or.inr hwit
              exact ih _ _ hS3 hT3 hex v
                (relaxFold_dist_mono soe cmp cost cmd.to_
                  (g.outgoing cmd.to_) (dist, heapRest) v hv) steps hw

set_option maxRecDepth 1000000 in
set_option maxHeartbeats 8000000 in
/-- C1 counterexample: on the homeland-size-5 topology `gX` (player
Red, scroll cost 50, comparator pair `(Time, Legs)`), `find_path` from
Red's campfire to the Yellow cell `(5,2)` returns `foundX`, yet the edge
walk `betterSteps` is a valid path with cost `betterX`, and the composite
comparator ranks `betterX` strictly below `foundX` — the returned path is
not minimal under `c1.and_then(c2)`, refuting the minimality part of the
claim. -/
theorem C1_counterexample :
    gX.findPath 50 fromX wX .Time .Legs 150 = .found foundX ∧
    walkCost gX 50 fromX betterSteps (TotalCost.new fromX) =
      some betterX ∧
    (CostComparator.Time.andThen .Legs) betterX foundX = .lt := by
  refine ⟨by decide, by decide, by decide⟩

/-- C1 (amended): whenever `find_path` returns `Some(cost)`, the cost is
realised by an edge walk of the graph from `from` that ends at `to`
(each step an edge of `const_edges ∪ dyn_edges`, accumulated exactly as
the pathfinder accumulates); and, whenever the fuel-indexed model of the
loop terminates, `None` (the `exhausted` outcome) is returned exactly
when no sequence of edges leads from `from` to `to`.  Minimality under
`c1.and_then(c2)` fails in general (see the counterexample), because the
command-count and lexicographic tie-breaks of the composite comparator
are not isotone under path extension. -/
theorem C1_amended (g : Graph) (soe : Nat) (from_ to_ : CellIndex)
    (c1 c2 : CostComparator) (fuel : Nat) :
    (∀ c, g.findPath soe from_ to_ c1 c2 fuel = .found c →
      ∃ steps,
        walkCost g soe from_ steps (TotalCost.new from_) = some c ∧
        walkEndsAt from_ steps = to_) ∧
    (g.findPath soe from_ to_ c1 c2 fuel ≠ .outOfFuel →
      (g.findPath soe from_ to_ c1 c2 fuel = .exhausted ↔
        ¬ ∃ steps cost,
          walkCost g soe from_ steps (TotalCost.new from_) = some cost ∧
          walkEndsAt from_ steps = to_)) := by
  constructor
  · intro c h
    unfold Graph.findPath at h
    by_cases hft : from_ = to_
    · rw [if_pos hft] at h
      obtain rfl : TotalCost.new from_ = c := by
        cases h
        rfl
      exact ⟨[], rfl, hft⟩
    · rw [if_neg hft] at h
      exact (findPathLoop_inv g soe to_ (c1.andThen c2) from_ fuel
        [(from_, TotalCost.new from_)] [TotalCost.new from_]
        (loopInv_init g soe from_)).2 c h
  · intro hnf
    by_cases hft : from_ = to_
    · subst hft
      have hfp : g.findPath soe from_ from_ c1 c2 fuel =
          .found (TotalCost.new from_) := by
        unfold Graph.findPath
        rw [if_pos rfl]
      constructor
      · intro hex
        rw [hfp] at hex
        cases hex
      · intro hnw
        exact absurd ⟨[], TotalCost.new from_, rfl, rfl⟩ hnw
    · unfold Graph.findPath at hnf ⊢
      rw [if_neg hft] at hnf ⊢
      have hS0 : SearchInv g (c1.andThen c2)
          [(from_, TotalCost.new from_)] [TotalCost.new from_] := by
        intro v dv hv
        by_cases hvf : from_ = v
        · subst hvf
          have hdv : distGet [(from_, TotalCost.new from_)] from_ =
              some (TotalCost.new from_) := by simp [distGet]
          rw [hdv] at hv
          injection hv with hv
          subst hv
          right
          exact ⟨TotalCost.new from_, List.mem_cons_self _ _,
            ⟨.NoMove, from_, from_⟩, rfl, rfl,
            by intro hgt; rw [andThen_self] at hgt; cases hgt⟩
        · simp [distGet, hvf] at hv
      have hT0 : TargetInv to_ [(from_, TotalCost.new from_)]
          [TotalCost.new from_] := by
        intro hsome
        simp [distGet, hft] at hsome
      constructor
      · intro hex
        rintro ⟨steps, cost, hwc, hend⟩
        exact findPathLoop_exhausted_no_walk g soe to_ (c1.andThen c2)
          (andThen_self c1 c2) fuel
          [(from_, TotalCost.new from_)] [TotalCost.new from_]
          hS0 hT0 hex from_ (by simp [distGet]) steps
          (walkOk_of_walkCost g soe steps from_ (TotalCost.new from_)
            cost hwc) hend
      · intro hnw
        cases hres : findPathLoop g soe to_ (c1.andThen c2) fuel
            [(from_, TotalCost.new from_)] [TotalCost.new from_] with
        | found c =>
          exfalso
          obtain ⟨steps, hwc, hend⟩ := (findPathLoop_inv g soe to_
            (c1.andThen c2) from_ fuel
            [(from_, TotalCost.new from_)] [TotalCost.new from_]
            (loopInv_init g soe from_)).2 c hres
          exact hnw ⟨steps, c, hwc, hend⟩
        | exhausted => rfl
        | panicked =>
          exact absurd hres (findPathLoop_inv g soe to_ (c1.andThen c2)
            from_ fuel [(from_, TotalCost.new from_)]
            [TotalCost.new from_] (loopInv_init g soe from_)).1
        | outOfFuel => exact absurd hres hnf

/-- Witness for the amended C1 at a concrete input (trivial search). -/
theorem C1_amended_witness :
    (∃ steps,
      walkCost gX 50 fromX steps (TotalCost.new fromX) =
        some (TotalCost.new fromX) ∧
      walkEndsAt fromX steps = fromX) ∧
    (gX.findPath 50 fromX fromX .Time .Legs 0 = .exhausted ↔
      ¬ ∃ steps cost,
        walkCost gX 50 fromX steps (TotalCost.new fromX) = some cost ∧
        walkEndsAt fromX steps = fromX) :=
  ⟨(C1_amended gX 50 fromX fromX .Time .Legs 0).1 (TotalCost.new fromX)
      (by rfl),
    (C1_amended gX 50 fromX fromX .Time .Legs 0).2 (by decide)⟩

end Marshrutka
